import Mathlib

/-!
# Verification of the valence routing / archive-materialization core

This file is a shallow embedding, in Lean 4, of the request-path
normalization pipeline, the routing decision engine, the static asset
resolver (all from `cmd/valence/storage.go`) and the embedded-archive
materializer (`internal/atomembed`, the `EnsureExtracted` /
`extractArchive` / `markerMatches` family) of the valence repository,
together with proofs of the specified properties.

Modelling conventions:

* Go strings are embedded as `List Char` (`Str`).  Go's `path.Clean`
  (equal to `filepath.Clean` on Linux, where the separator is `/`) is
  embedded as `goClean` via the standard segment-stack formulation of
  the algorithm.  `filepath.Join` of two elements is `fpJoin`,
  `filepath.Dir` is `dirOf`; `filepath.FromSlash` is the identity on
  Linux and is dropped.
* The concrete regular expressions of `storage.go` are embedded as
  decidable string predicates with the same extension (Go's `.`
  metacharacter matches any character except a newline; the embeddings
  keep that caveat explicitly via `noNL`).
* The filesystem seen by the request router is an abstract stat oracle
  `RFS := Str → Option Bool` (`some b` = path exists, `b` = is a
  directory — the answer `os.Stat` gives after following links;
  `none` = stat error).  The router only ever stats.
* The filesystem mutated by the archive materializer is a concrete
  association list from paths to nodes (`FS`), with the first binding
  for a key the visible one; every mutating operation treats keys
  uniformly.  OS-level I/O failures other than the structural ones the
  code itself distinguishes (path missing, node-kind conflicts) are
  outside the model.
-/

set_option maxHeartbeats 1000000

/-- Go strings, embedded as lists of characters. -/
abbrev Str := List Char

/-- Convert a Lean string literal to the `Str` embedding. -/
def str (s : String) : Str := s.toList

/-- `beginsWith s pre` is Go `strings.HasPrefix(s, pre)`. -/
def beginsWith : Str → Str → Bool
  | _, [] => true
  | [], _ :: _ => false
  | c :: s, d :: pre => (c = d) && beginsWith s pre

/-- `endsW s suf` is Go `strings.HasSuffix(s, suf)`. -/
def endsW (s suf : Str) : Bool := beginsWith s.reverse suf.reverse

/-- `containsSeq pat s` is Go `strings.Contains(s, pat)`. -/
def containsSeq (pat : Str) : Str → Bool
  | [] => beginsWith [] pat
  | c :: t => beginsWith (c :: t) pat || containsSeq pat t

/-- The two-dot traversal sequence. -/
def dotdot : Str := ['.', '.']

/-- ASCII whitespace, as used by Go `strings.TrimSpace` on the strings
appearing here (all ASCII). -/
def isSpaceCh (c : Char) : Bool :=
  c = ' ' || c = '\t' || c = '\n' || c = '\r' || c = '\x0b' || c = '\x0c'

/-- Go `strings.TrimSpace` (restricted to ASCII whitespace). -/
def trimSpace (s : Str) : Str :=
  ((s.dropWhile isSpaceCh).reverse.dropWhile isSpaceCh).reverse

/-- Go `strings.TrimPrefix`. -/
def trimPre (s pre : Str) : Str :=
  if beginsWith s pre then s.drop pre.length else s

/-- Split a path on `/`, keeping empty segments (so that
`splitSlash` is a left inverse of joining with `/`). -/
def splitSlash : Str → List Str
  | [] => [[]]
  | c :: t =>
    if c = '/' then [] :: splitSlash t
    else
      match splitSlash t with
      | [] => [[c]]
      | s :: rest => (c :: s) :: rest

/-- One step of the segment-stack formulation of Go `path.Clean`:
empty and `.` segments are dropped; `..` pops a normal segment, is
dropped at the root of a rooted path, and accumulates at the front of
an unrooted path; every other segment is pushed. -/
def segStep (rooted : Bool) (stack : List Str) (seg : Str) : List Str :=
  if seg = [] || seg = ['.'] then stack
  else if seg = ['.', '.'] then
    match stack with
    | [] => if rooted then [] else [seg]
    | top :: stk => if top = ['.', '.'] then seg :: stack else stk
  else seg :: stack

/-- Process a list of segments through `segStep`. -/
def processSegs (rooted : Bool) (st : List Str) (l : List Str) : List Str :=
  l.foldl (segStep rooted) st

/-- Join segments with `/`. -/
def joinSegs : List Str → Str
  | [] => []
  | [s] => s
  | s :: rest => s ++ '/' :: joinSegs rest

/-- Go `path.Clean` (equivalently `filepath.Clean` on Linux), via the
segment-stack formulation: resolve `.` and `..` lexically, collapse
repeated slashes; the empty path cleans to `.`; a rooted path stays
rooted, with `..` unable to climb above the root; an unrooted path
keeps leading `..` segments. -/
def goClean (p : Str) : Str :=
  if p = [] then ['.']
  else
    let rooted := p.head? = some '/'
    let stack := processSegs rooted [] (splitSlash p)
    let body := joinSegs stack.reverse
    if rooted then '/' :: body
    else if body = [] then ['.'] else body

/-- Go `filepath.Join` of two elements on Linux: empty elements are
skipped, and the result is `Clean`ed. -/
def fpJoin (a b : Str) : Str :=
  if a = [] then (if b = [] then [] else goClean b)
  else if b = [] then goClean a
  else goClean (a ++ '/' :: b)

/-- Everything up to and including the last `/` of a path (Go's
`filepath.Dir` before the final `Clean`). -/
def dropLastSeg (p : Str) : Str :=
  (p.reverse.dropWhile (fun c => decide (c ≠ '/'))).reverse

/-- Go `filepath.Dir` on Linux. -/
def dirOf (p : Str) : Str := goClean (dropLastSeg p)

/-! ## The path normalizer of `storage.go` -/

/-- `cleanPath` from `storage.go`: lexically clean `"/" + p`, and
fail safe to `/` if a `..` sequence survives cleaning. -/
def cleanPath (p : Str) : Str :=
  let c := goClean ('/' :: p)
  if containsSeq dotdot c then ['/'] else c

/-- `stripLegacyFrontController` from `storage.go`.  Returns `[]`
(Go: the empty string) when no rewrite applies. -/
def stripLegacyFrontController (p : Str) : Str :=
  if beginsWith p (str "/index.php/") then
    '/' :: p.drop (str "/index.php/").length
  else if beginsWith p (str "/qubit_dev.php/") then
    '/' :: p.drop (str "/qubit_dev.php/").length
  else if p = str "/index.php" || p = str "/qubit_dev.php" then
    str "/"
  else []

/-- `rewriteStoragePath` from `storage.go`: the single legacy path
alias.  Returns `[]` when no rewrite applies. -/
def rewriteStoragePath (p : Str) : Str :=
  if p = str "/storage/location/list" then str "/storage/list" else []

/-- `ServeHTTP` applies a rewrite only when it returned a non-empty
string; this lifts such a rewrite function to a total step. -/
def applyRewrite (f : Str → Str) (p : Str) : Str :=
  let r := f p
  if r = [] then p else r

/-- The front-controller-stripping step, as applied by `ServeHTTP`. -/
def stripStep (p : Str) : Str := applyRewrite stripLegacyFrontController p

/-- The alias-rewriting step, as applied by `ServeHTTP`. -/
def aliasStep (p : Str) : Str := applyRewrite rewriteStoragePath p

/-- The full normalization pipeline of `ServeHTTP`: lexical clean,
then legacy entry-point stripping, then alias rewriting. -/
def normalizePath (p : Str) : Str := aliasStep (stripStep (cleanPath p))

/-! ## The routing pattern table of `storage.go`

Each Go regular expression is embedded as a decidable predicate with
the same extension.  `noNL` records that Go's `.` does not match a
newline. -/

/-- `s` contains no newline (the set of strings matched by Go's `.*`). -/
def noNL (s : Str) : Bool := !(containsSeq ['\n'] s)

/-- The substring strictly between a prefix and a suffix. -/
def midOf (p pre suf : Str) : Str :=
  (p.drop pre.length).take (p.length - pre.length - suf.length)

/-- Matches `^PRE.*SUF$` for literal `pre`/`suf` (no metacharacters in
either): `p` decomposes as `pre ++ mid ++ suf` with `mid` free of
newlines. -/
def famMatch (pre suf p : Str) : Bool :=
  beginsWith p pre && endsW p suf &&
    decide (pre.length + suf.length ≤ p.length) && noNL (midOf p pre suf)

/-- The first-level directory families of `staticAssetRe`. -/
def staticFams : List Str :=
  [str "css", str "dist", str "js", str "images", str "plugins", str "vendor"]

/-- The extensions of `staticAssetRe`. -/
def staticExts : List Str :=
  [str "css", str "png", str "jpg", str "js", str "svg", str "ico",
   str "gif", str "pdf", str "woff", str "woff2", str "otf", str "ttf"]

/-- The extensions of `downloadAssetRe`. -/
def downloadExts : List Str :=
  [str "pdf", str "xml", str "html", str "csv", str "zip", str "rtf"]

/-- `staticAssetRe`:
`^/(css|dist|js|images|plugins|vendor)/.*\.(css|png|jpg|js|svg|ico|gif|pdf|woff|woff2|otf|ttf)$`. -/
def staticAssetMatch (p : Str) : Bool :=
  staticFams.any fun fam => staticExts.any fun ext =>
    famMatch ('/' :: (fam ++ ['/'])) ('.' :: ext) p

/-- `downloadAssetRe`: `^/(downloads)/.*\.(pdf|xml|html|csv|zip|rtf)$`. -/
def downloadAssetMatch (p : Str) : Bool :=
  downloadExts.any fun ext => famMatch (str "/downloads/") ('.' :: ext) p

/-- `publicFileRe`: `^/(ead\.dtd|favicon\.ico|robots\.txt|sitemap.*)$`. -/
def publicFileMatch (p : Str) : Bool :=
  p = str "/ead.dtd" || p = str "/favicon.ico" || p = str "/robots.txt" ||
    (beginsWith p (str "/sitemap") && noNL (p.drop (str "/sitemap").length))

/-- `matchesStatic` from `storage.go`. -/
def matchesStatic (p : Str) : Bool :=
  staticAssetMatch p || downloadAssetMatch p || publicFileMatch p

/-- `uploadsConfRe`: `^/uploads/r/.*/conf/` (unanchored at the end). -/
def uploadsConfMatch (p : Str) : Bool :=
  beginsWith p (str "/uploads/r/") &&
    containsSeq (str "/conf/")
      ((p.drop (str "/uploads/r/").length).takeWhile (fun c => decide (c ≠ '\n')))

/-- `uploadsAssetRe`: `^/uploads/r/.*`. -/
def uploadsAssetMatch (p : Str) : Bool := beginsWith p (str "/uploads/r/")

/-- `privatePathRe`: `^/private/`. -/
def privatePathMatch (p : Str) : Bool := beginsWith p (str "/private/")

/-- `phpEntryRe`: `^/(index|qubit_dev)\.php(/|$)`. -/
def phpEntryMatch (p : Str) : Bool :=
  p = str "/index.php" || p = str "/qubit_dev.php" ||
    beginsWith p (str "/index.php/") || beginsWith p (str "/qubit_dev.php/")

/-! ## The routing decision engine of `storage.go` -/

/-- The filesystem as the router sees it: a stat oracle.
`some b` means the path exists and `b` tells whether it is a
directory (after `os.Stat` link following); `none` is a stat error. -/
abbrev RFS := Str → Option Bool

/-- The read-only routing state of `atomHandler`. -/
structure AtomHandler where
  phpRoot : Str
  /-- The optional data-overlay root; `[]` means unset. -/
  atomDataDir : Str
deriving DecidableEq

/-- An inbound HTTP request, as far as routing can observe it. -/
structure HTTPRequest where
  method : Str
  headers : List (Str × Str)
  body : Str

/-- The request path relative to the root
(`strings.TrimPrefix(requestPath, "/")`). -/
def relOf (p : Str) : Str := trimPre p ['/']

/-- The ordered candidate list of `atomHandler.staticAssetPath`: the
overlay root first, and only for download-family paths, then the
primary application root. -/
def staticCandidates (h : AtomHandler) (p : Str) : List Str :=
  (if !h.atomDataDir.isEmpty && downloadAssetMatch p then
    [fpJoin h.atomDataDir (relOf p)]
  else []) ++ [fpJoin h.phpRoot (relOf p)]

/-- The candidate scan of `atomHandler.staticAssetPath`: skip stat
errors and directories, return the first remaining candidate. -/
def firstStaticHit (fs : RFS) : List Str → Option Str
  | [] => none
  | c :: rest =>
    match fs c with
    | some isDir => if isDir then firstStaticHit fs rest else some c
    | none => firstStaticHit fs rest

/-- `atomHandler.staticAssetPath` from `storage.go`. -/
def staticAssetPath (fs : RFS) (h : AtomHandler) (p : Str) : Option Str :=
  firstStaticHit fs (staticCandidates h p)

/-- `atomHandler.existsOnDisk` from `storage.go`. -/
def existsOnDisk (fs : RFS) (h : AtomHandler) (p : Str) : Bool :=
  match fs (fpJoin h.phpRoot (relOf p)) with
  | some isDir => !isDir
  | none => false

/-- The decision labels of `decideRoute` (the attached handler is
determined by the label; for `static` the resolved asset path is the
handler's only other input). -/
inductive RouteLabel where
  | deny_private
  | deny_uploads_conf
  | php_entry
  | static (assetPath : Str)
  | static_missing
  | uploads_front_controller
  | deny_direct_file
  | front_controller
deriving DecidableEq

/-- `atomHandler.decideRoute` from `storage.go`: the ordered policy
chain, committing to the first match.  The request `r` is threaded
through exactly as in the Go signature; the decision reads only the
normalized path and the filesystem. -/
def decideRoute (fs : RFS) (h : AtomHandler) (_r : HTTPRequest) (reqPath : Str) :
    RouteLabel :=
  if privatePathMatch reqPath then .deny_private
  else if uploadsConfMatch reqPath then .deny_uploads_conf
  else if phpEntryMatch reqPath then .php_entry
  else if matchesStatic reqPath then
    match staticAssetPath fs h reqPath with
    | some assetPath => .static assetPath
    | none => .static_missing
  else if uploadsAssetMatch reqPath then .uploads_front_controller
  else if existsOnDisk fs h reqPath then .deny_direct_file
  else .front_controller

/-! ## The archive materializer (`internal/atomembed`)

The mutable filesystem is an association list from (raw, string)
paths to nodes; the first binding of a key is the visible one, and
every operation updates or removes all bindings of a key at once. -/

/-- Node kinds: regular file, directory, symbolic link. -/
inductive FKind where
  | reg
  | dir
  | sym
deriving DecidableEq

/-- A filesystem node.  `content` is the file data for `reg` and the
link target for `sym`; permission bits are not modelled. -/
structure FNode where
  kind : FKind
  content : Str
deriving DecidableEq

/-- The mutable filesystem of the materializer. -/
abbrev FS := List (Str × FNode)

/-- Association-list lookup (first binding wins). -/
def lookupFS : FS → Str → Option FNode
  | [], _ => none
  | (q, n) :: rest, p => if q = p then some n else lookupFS rest p

/-- Remove every binding of a key. -/
def removeKey (p : Str) (fs : FS) : FS :=
  fs.filter fun e => decide (e.1 ≠ p)

/-- Bind `p` to `n`, shadowing nothing (old bindings are removed). -/
def insertFS (fs : FS) (p : Str) (n : FNode) : FS :=
  (p, n) :: removeKey p fs

/-- `os.Stat` (modulo I/O errors, which are outside the model). -/
def statFS (fs : FS) (p : Str) : Option FNode := lookupFS fs p

/-- `os.ReadFile`: the content of a regular file, `none` on any error
(missing path or non-regular node). -/
def readFileFS (fs : FS) (p : Str) : Option Str :=
  match statFS fs p with
  | some n => if n.kind = .reg then some n.content else none
  | none => none

/-- `os.WriteFile`: create or truncate a regular file; writing over a
directory fails. -/
def writeFileFS (fs : FS) (p : Str) (data : Str) : FS × Option Str :=
  match statFS fs p with
  | some n =>
    if n.kind = .dir then (fs, some (str "is a directory"))
    else (insertFS fs p ⟨.reg, data⟩, none)
  | none => (insertFS fs p ⟨.reg, data⟩, none)

/-- `os.MkdirAll`: a no-op on an existing directory, an error on an
existing non-directory, otherwise creates the directory (intermediate
parents are not tracked separately by the model). -/
def mkdirAllFS (fs : FS) (p : Str) : FS × Option Str :=
  match statFS fs p with
  | some n => if n.kind = .dir then (fs, none) else (fs, some (str "not a directory"))
  | none => (insertFS fs p ⟨.dir, []⟩, none)

/-- `os.Symlink` combined with the caller's tolerance of
`os.ErrExist`: an existing node of any kind is left in place. -/
def symlinkFS (fs : FS) (linkname p : Str) : FS × Option Str :=
  match statFS fs p with
  | some _ => (fs, none)
  | none => (insertFS fs p ⟨.sym, linkname⟩, none)

/-- `p` lies strictly inside the directory `t`. -/
def strictlyUnder (t p : Str) : Bool := beginsWith p (t ++ ['/'])

/-- `dirEmpty` from `atomembed`: `os.ReadDir` errors (non-directory
or missing target) give `false`; otherwise the directory is empty iff
nothing lies strictly under it. -/
def dirEmptyFS (fs : FS) (t : Str) : Bool :=
  match statFS fs t with
  | some n => decide (n.kind = .dir) && fs.all fun e => !(strictlyUnder t e.1)
  | none => false

/-- `os.RemoveAll`: delete the target and everything under it. -/
def removeAllFS (fs : FS) (t : Str) : FS :=
  fs.filter fun e => decide (e.1 ≠ t) && !(strictlyUnder t e.1)

/-- Tar entry types distinguished by `extractArchive`. -/
inductive TarType where
  | dir
  | sym
  | reg
  | other
deriving DecidableEq

/-- A decoded tar entry (mode bits are not modelled). -/
structure TarEntry where
  name : Str
  typeflag : TarType
  linkname : Str
  content : Str
deriving DecidableEq

/-- The embedded archive: its decoded entries, the hex SHA-256 digest
of its raw bytes (`ArchiveHash`), and whether it is non-empty
(`ArchiveAvailable`). -/
structure Snapshot where
  entries : List TarEntry
  digest : Str
  available : Bool
deriving DecidableEq

/-- `markerFile` from `atomembed`. -/
def markerName : Str := str ".valence-atom-version"

/-- The on-disk location of the Version Marker. -/
def markerPath (target : Str) : Str := fpJoin target markerName

/-- Error strings of the materializer. -/
def errInvalidPath : Str := str "archive contains invalid path"

/-- Error when the embedded archive is empty. -/
def errNoArchive : Str := str "embedded atom archive not available"

/-- `ErrAtomRootExists` from `atomembed`. -/
def errAtomRootExists : Str := str "atom root exists and differs from embedded archive"

/-- Error when the target exists and is not a directory. -/
def errNotDirectory : Str := str "atom root exists and is not a directory"

/-- Error when the target path is blank. -/
def errEmptyPath : Str := str "atom root path is empty"

/-- `markerMatches` from `atomembed`: the marker file exists and its
trimmed content equals the current archive digest. -/
def markerMatches (snap : Snapshot) (fs : FS) (target : Str) : Bool :=
  match readFileFS fs (markerPath target) with
  | some contents => decide (trimSpace contents = snap.digest)
  | none => false

/-- Handling of one tar entry by `extractArchive`: empty names are
skipped; an entry whose cleaned path begins with `..` or is absolute
aborts extraction; directory, symlink and regular entries materialize
under the target; other types are skipped. -/
def extractEntry (target : Str) (fs : FS) (e : TarEntry) : FS × Option Str :=
  if e.name = [] then (fs, none)
  else
    let cleanName := goClean e.name
    if beginsWith cleanName dotdot || decide (cleanName.head? = some '/') then
      (fs, some errInvalidPath)
    else
      let dstPath := fpJoin target cleanName
      match e.typeflag with
      | .dir => mkdirAllFS fs dstPath
      | .sym =>
        match mkdirAllFS fs (dirOf dstPath) with
        | (fs₁, some err) => (fs₁, some err)
        | (fs₁, none) => symlinkFS fs₁ e.linkname dstPath
      | .reg =>
        match mkdirAllFS fs (dirOf dstPath) with
        | (fs₁, some err) => (fs₁, some err)
        | (fs₁, none) => writeFileFS fs₁ dstPath e.content
      | .other => (fs, none)

/-- The entry loop of `extractArchive`: stop at the first error,
returning the partially materialized filesystem. -/
def extractEntries (target : Str) (fs : FS) : List TarEntry → FS × Option Str
  | [] => (fs, none)
  | e :: rest =>
    match extractEntry target fs e with
    | (fs₁, some err) => (fs₁, some err)
    | (fs₁, none) => extractEntries target fs₁ rest

/-- `extractArchive` from `atomembed`. -/
def extractArchive (snap : Snapshot) (target : Str) (fs : FS) : FS × Option Str :=
  if !snap.available then (fs, some errNoArchive)
  else
    match mkdirAllFS fs target with
    | (fs₁, some err) => (fs₁, some err)
    | (fs₁, none) => extractEntries target fs₁ snap.entries

/-- The tail of `EnsureExtracted` once extraction was decided:
extract, then (only on full success) write the Version Marker with
the snapshot digest.  A marker-write failure is reported with
`didExtract = true`, as in the Go code. -/
def finishExtract (snap : Snapshot) (target : Str) (fs : FS) :
    FS × Bool × Option Str :=
  match extractArchive snap target fs with
  | (fs₁, some err) => (fs₁, false, some err)
  | (fs₁, none) =>
    match writeFileFS fs₁ (markerPath target) snap.digest with
    | (fs₂, some err) => (fs₂, true, some err)
    | (fs₂, none) => (fs₂, true, none)

/-- `EnsureExtracted` from `atomembed`: the boot-time decision table
over target state, marker and `force`. -/
def EnsureExtracted (snap : Snapshot) (target : Str) (force : Bool) (fs : FS) :
    FS × Bool × Option Str :=
  if trimSpace target = [] then (fs, false, some errEmptyPath)
  else
    match statFS fs target with
    | some info =>
      if info.kind ≠ .dir then (fs, false, some errNotDirectory)
      else if markerMatches snap fs target then (fs, false, none)
      else if force then finishExtract snap target (removeAllFS fs target)
      else if dirEmptyFS fs target then finishExtract snap target fs
      else (fs, false, some errAtomRootExists)
    | none => finishExtract snap target fs

/-- `ensureAtomRoot` from `cmd/valence/storage.go`: run
`EnsureExtracted` and treat `ErrAtomRootExists` as non-fatal (log and
continue); every other error is propagated to the boot sequence. -/
def ensureAtomRoot (snap : Snapshot) (forceExtract : Bool) (fs : FS) (path : Str) :
    FS × Option Str :=
  match EnsureExtracted snap path forceExtract fs with
  | (fs₁, _, some err) =>
    if err = errAtomRootExists then (fs₁, none) else (fs₁, some err)
  | (fs₁, _, none) => (fs₁, none)

/-! ## Basic lemmas about the string primitives -/

theorem beginsWith_nil (s : Str) : beginsWith s [] = true := by
  cases s <;> rfl

theorem beginsWith_append (a b : Str) : beginsWith (a ++ b) a = true := by
  induction a with
  | nil => exact beginsWith_nil b
  | cons c t ih => simp [beginsWith, ih]

/-- Two prefixes of the same string are comparable. -/
theorem beginsWith_compat :
    ∀ (s a b : Str), beginsWith s a = true → beginsWith s b = true →
      beginsWith a b = true ∨ beginsWith b a = true := by
  intro s
  induction s with
  | nil =>
    intro a b ha _
    cases a with
    | nil => right; exact beginsWith_nil b
    | cons c t => simp [beginsWith] at ha
  | cons c s ih =>
    intro a b ha hb
    cases a with
    | nil => right; exact beginsWith_nil b
    | cons d a' =>
      cases b with
      | nil => left; exact beginsWith_nil (d :: a')
      | cons e b' =>
        simp [beginsWith] at ha hb
        obtain ⟨hcd, ha'⟩ := ha
        obtain ⟨hce, hb'⟩ := hb
        rcases ih a' b' ha' hb' with h | h
        · left; simp [beginsWith, hcd ▸ hce, h]
        · right; simp [beginsWith, hce ▸ hcd, h]

/-- Incompatible literal prefixes never hold of the same string. -/
theorem no_two_pre (a b : Str) (hab : (beginsWith a b || beginsWith b a) = false)
    (s : Str) (ha : beginsWith s a = true) : beginsWith s b = false := by
  cases hbb : beginsWith s b with
  | false => rfl
  | true =>
    rcases beginsWith_compat s a b ha hbb with h | h <;> simp [h] at hab

/-- A string with a prefix that `e` lacks is not `e`. -/
theorem bw_exact_ne (a e : Str) (h : beginsWith e a = false) (s : Str)
    (hs : beginsWith s a = true) : s ≠ e := by
  intro hse
  subst hse
  simp [hs] at h

/-! ## Lemmas about the association-list filesystem -/

theorem lookupFS_filter (fs : FS) (pred : Str → Bool) (q : Str) :
    lookupFS (fs.filter fun e => pred e.1) q =
      if pred q then lookupFS fs q else none := by
  induction fs with
  | nil => simp [lookupFS]
  | cons hd rest ih =>
    obtain ⟨a, n⟩ := hd
    by_cases haq : a = q
    · subst haq
      cases hpa : pred a <;> simp [List.filter_cons, hpa, lookupFS, ih]
    · cases hpa : pred a <;>
        simp [List.filter_cons, hpa, lookupFS, haq, ih]

theorem lookupFS_insert (fs : FS) (p : Str) (n : FNode) (q : Str) :
    lookupFS (insertFS fs p n) q = if q = p then some n else lookupFS fs q := by
  show lookupFS ((p, n) :: removeKey p fs) q = _
  by_cases hq : q = p
  · subst hq; simp [lookupFS]
  · have : lookupFS (removeKey p fs) q = lookupFS fs q := by
      have h := lookupFS_filter fs (fun x => decide (x ≠ p)) q
      simpa [removeKey, hq] using h
    simp [lookupFS, hq, this]
    intro h
    exact absurd h.symm hq

theorem lookupFS_removeAll (fs : FS) (t q : Str) :
    lookupFS (removeAllFS fs t) q =
      if q = t || strictlyUnder t q then none else lookupFS fs q := by
  have h := lookupFS_filter fs (fun x => decide (x ≠ t) && !(strictlyUnder t x)) q
  by_cases hq : q = t
  · simpa [removeAllFS, hq] using h
  · cases hu : strictlyUnder t q <;> simpa [removeAllFS, hq, hu] using h

/-- A successful binding is literally present in the list. -/
theorem lookupFS_mem (fs : FS) (q : Str) (n : FNode)
    (h : lookupFS fs q = some n) : (q, n) ∈ fs := by
  induction fs with
  | nil => simp [lookupFS] at h
  | cons hd rest ih =>
    obtain ⟨a, m⟩ := hd
    by_cases haq : a = q
    · subst haq
      simp [lookupFS] at h
      simp [h]
    · simp [lookupFS, haq] at h
      exact List.mem_cons_of_mem _ (ih h)

/-! ## Lemmas about `goClean` and the segment machinery -/

theorem splitSlash_ne_nil (p : Str) : splitSlash p ≠ [] := by
  cases p with
  | nil => simp [splitSlash]
  | cons c t =>
    simp only [splitSlash]
    split
    · simp
    · split <;> simp

theorem splitSlash_cons_exists (t : Str) :
    ∃ s rest, splitSlash t = s :: rest := by
  cases h : splitSlash t with
  | nil => exact absurd h (splitSlash_ne_nil t)
  | cons s rest => exact ⟨s, rest, rfl⟩

theorem splitSlash_append (a b : Str) :
    splitSlash (a ++ '/' :: b) = splitSlash a ++ splitSlash b := by
  induction a with
  | nil => simp [splitSlash]
  | cons c t ih =>
    by_cases hc : c = '/'
    · subst hc
      show splitSlash ('/' :: (t ++ '/' :: b)) = _
      rw [splitSlash, if_pos rfl, ih, splitSlash, if_pos rfl]
      simp
    · obtain ⟨s, rest, hsr⟩ := splitSlash_cons_exists t
      show splitSlash (c :: (t ++ '/' :: b)) = _
      rw [splitSlash, if_neg hc, ih, hsr]
      rw [splitSlash, if_neg hc, hsr]
      simp

theorem processSegs_append (r : Bool) (st : List Str) (l₁ l₂ : List Str) :
    processSegs r st (l₁ ++ l₂) = processSegs r (processSegs r st l₁) l₂ := by
  simp [processSegs, List.foldl_append]

/-- A path segment that survives `path.Clean` untouched. -/
def normalSeg (s : Str) : Prop :=
  s ≠ [] ∧ s ≠ ['.'] ∧ s ≠ ['.', '.'] ∧ '/' ∉ s

theorem segStep_normal (r : Bool) (st : List Str) (x : Str) (hx : normalSeg x) :
    segStep r st x = x :: st := by
  have h1 : (decide (x = []) || decide (x = ['.'])) = false := by
    simp [hx.1, hx.2.1]
  simp [segStep, h1, hx.2.2.1]

theorem processSegs_all_normal (r : Bool) (l : List Str) (st : List Str)
    (h : ∀ s ∈ l, normalSeg s) : processSegs r st l = l.reverse ++ st := by
  induction l generalizing st with
  | nil => simp [processSegs]
  | cons x xs ih =>
    have hx := h x (by simp)
    have hxs : ∀ s ∈ xs, normalSeg s := fun s hs => h s (by simp [hs])
    calc processSegs r st (x :: xs)
        = processSegs r (segStep r st x) xs := by simp [processSegs]
      _ = processSegs r (x :: st) xs := by rw [segStep_normal r st x hx]
      _ = xs.reverse ++ (x :: st) := ih (x :: st) hxs
      _ = (x :: xs).reverse ++ st := by simp

theorem segStep_rooted_normal (st : List Str) (x : Str)
    (hx : '/' ∉ x) (hst : ∀ s ∈ st, normalSeg s) :
    ∀ s ∈ segStep true st x, normalSeg s := by
  by_cases h0 : x = [] ∨ x = ['.']
  · have h1 : (decide (x = []) || decide (x = ['.'])) = true := by
      rcases h0 with h | h <;> simp [h]
    simpa [segStep, h1] using hst
  · push_neg at h0
    have h1 : (decide (x = []) || decide (x = ['.'])) = false := by
      simp [h0.1, h0.2]
    by_cases h2 : x = ['.', '.']
    · subst h2
      cases st with
      | nil => simp [segStep, h1]
      | cons top stk =>
        have htop := hst top (by simp)
        have hne : top ≠ ['.', '.'] := htop.2.2.1
        have hstep : segStep true (top :: stk) ['.', '.'] = stk := by
          simp [segStep, h1, hne]
        rw [hstep]
        intro s hs
        exact hst s (by simp [hs])
    · have : segStep true st x = x :: st := by
        simp [segStep, h1, h2]
      rw [this]
      intro s hs
      rcases List.mem_cons.mp hs with rfl | hs
      · exact ⟨h0.1, h0.2, h2, hx⟩
      · exact hst s hs

theorem processSegs_rooted_normal (l : List Str) :
    ∀ (st : List Str), (∀ s ∈ l, '/' ∉ s) → (∀ s ∈ st, normalSeg s) →
      ∀ s ∈ processSegs true st l, normalSeg s := by
  induction l with
  | nil =>
    intro st _ hst
    simpa [processSegs] using hst
  | cons x xs ih =>
    intro st hl hst
    have hstep : ∀ s ∈ segStep true st x, normalSeg s :=
      segStep_rooted_normal st x (hl x (by simp)) hst
    have hunf : processSegs true st (x :: xs) =
        processSegs true (segStep true st x) xs := by
      simp [processSegs]
    rw [hunf]
    exact ih (segStep true st x) (fun s hs => hl s (by simp [hs])) hstep

theorem splitSlash_no_slash (p : Str) : ∀ s ∈ splitSlash p, '/' ∉ s := by
  induction p with
  | nil =>
    intro s hs
    simp [splitSlash] at hs
    simp [hs]
  | cons c t ih =>
    by_cases hc : c = '/'
    · subst hc
      intro s hs
      rw [splitSlash, if_pos rfl] at hs
      rcases List.mem_cons.mp hs with rfl | hs
      · simp
      · exact ih s hs
    · obtain ⟨s₀, rest, hsr⟩ := splitSlash_cons_exists t
      intro s hs
      rw [splitSlash, if_neg hc, hsr] at hs
      rcases List.mem_cons.mp hs with rfl | hs
      · intro hmem
        rcases List.mem_cons.mp hmem with h | h
        · exact hc h.symm
        · exact ih s₀ (by simp [hsr]) h
      · exact ih s (by simp [hsr, hs])

theorem splitSlash_no_slash_eq (x : Str) (h : '/' ∉ x) : splitSlash x = [x] := by
  induction x with
  | nil => rfl
  | cons c t ih =>
    have hc : ¬c = '/' := fun hcc => h (by simp [hcc])
    have ht : '/' ∉ t := fun htt => h (by simp [htt])
    rw [splitSlash, if_neg hc, ih ht]

theorem splitSlash_joinSegs (l : List Str) (hne : l ≠ [])
    (h : ∀ s ∈ l, '/' ∉ s) : splitSlash (joinSegs l) = l := by
  induction l with
  | nil => exact absurd rfl hne
  | cons x xs ih =>
    cases xs with
    | nil => exact splitSlash_no_slash_eq x (h x (by simp))
    | cons y ys =>
      have hj : joinSegs (x :: y :: ys) = x ++ '/' :: joinSegs (y :: ys) := rfl
      rw [hj, splitSlash_append, splitSlash_no_slash_eq x (h x (by simp)),
        ih (by simp) (fun s hs => h s (by simp [List.mem_cons.mp hs]))]
      rfl

theorem joinSegs_append (xs ys : List Str) (hxs : xs ≠ []) (hys : ys ≠ []) :
    joinSegs (xs ++ ys) = joinSegs xs ++ '/' :: joinSegs ys := by
  induction xs with
  | nil => exact absurd rfl hxs
  | cons x xt ih =>
    cases xt with
    | nil =>
      cases ys with
      | nil => exact absurd rfl hys
      | cons y yt => rfl
    | cons z zt =>
      have h1 : joinSegs ((x :: z :: zt) ++ ys) =
          x ++ '/' :: joinSegs ((z :: zt) ++ ys) := rfl
      have h2 : joinSegs (x :: z :: zt) = x ++ '/' :: joinSegs (z :: zt) := rfl
      rw [h1, ih (by simp), h2]
      simp

theorem goClean_rooted (p : Str) :
    goClean ('/' :: p) =
      '/' :: joinSegs (processSegs true [] (splitSlash p)).reverse := by
  have h1 : splitSlash ('/' :: p) = [] :: splitSlash p := by
    rw [splitSlash, if_pos rfl]
  have h2 : processSegs true [] ([] :: splitSlash p) =
      processSegs true [] (splitSlash p) := by
    simp [processSegs, segStep]
  simp [goClean, h1, h2]

theorem goClean_rooted_image (p : Str) :
    ∃ L, (∀ s ∈ L, normalSeg s) ∧ goClean ('/' :: p) = '/' :: joinSegs L := by
  refine ⟨(processSegs true [] (splitSlash p)).reverse, ?_, goClean_rooted p⟩
  intro s hs
  exact processSegs_rooted_normal (splitSlash p) [] (splitSlash_no_slash p)
    (by simp) s (List.mem_reverse.mp hs)

theorem goClean_doubleSlash (p : Str) :
    goClean ('/' :: '/' :: p) = goClean ('/' :: p) := by
  rw [goClean_rooted, goClean_rooted]
  have h1 : splitSlash ('/' :: p) = [] :: splitSlash p := by
    rw [splitSlash, if_pos rfl]
  have h2 : processSegs true [] ([] :: splitSlash p) =
      processSegs true [] (splitSlash p) := by
    simp [processSegs, segStep]
  rw [h1, h2]

theorem goClean_rooted_join (L : List Str) (h : ∀ s ∈ L, normalSeg s) :
    goClean ('/' :: joinSegs L) = '/' :: joinSegs L := by
  cases L with
  | nil => decide
  | cons x xs =>
    have hslash : ∀ s ∈ x :: xs, '/' ∉ s := fun s hs => (h s hs).2.2.2
    rw [goClean_rooted, splitSlash_joinSegs (x :: xs) (by simp) hslash,
      processSegs_all_normal true (x :: xs) [] h]
    simp

/-! ## Lemmas about `cleanPath` -/

theorem containsSeq_cons_of (pat : Str) (c : Char) (t : Str)
    (h : containsSeq pat t = true) : containsSeq pat (c :: t) = true := by
  simp [containsSeq, h]

theorem containsSeq_append_right (pat a b : Str)
    (h : containsSeq pat b = true) : containsSeq pat (a ++ b) = true := by
  induction a with
  | nil => simpa using h
  | cons c t ih => simpa [containsSeq] using Or.inr ih

theorem containsSeq_cons_ne (p₀ : Char) (pr : Str) (c : Char) (hne : c ≠ p₀)
    (t : Str) : containsSeq (p₀ :: pr) (c :: t) = containsSeq (p₀ :: pr) t := by
  simp [containsSeq, beginsWith, hne]

theorem cleanPath_head (p : Str) : (cleanPath p).head? = some '/' := by
  obtain ⟨L, _, hEq⟩ := goClean_rooted_image p
  rw [cleanPath]
  split
  · rfl
  · rw [hEq]
    rfl

theorem cleanPath_no_dotdot (p : Str) :
    containsSeq dotdot (cleanPath p) = false := by
  rw [cleanPath]
  split
  · decide
  · next h => simpa using h

theorem cleanPath_eq (p : Str) :
    cleanPath p = if containsSeq dotdot (goClean ('/' :: p)) = true then ['/']
      else goClean ('/' :: p) := rfl

theorem cleanPath_image (p : Str) :
    ∃ L, (∀ s ∈ L, normalSeg s) ∧ cleanPath p = '/' :: joinSegs L ∧
      containsSeq dotdot (cleanPath p) = false := by
  have hdd := cleanPath_no_dotdot p
  obtain ⟨L, hL, hEq⟩ := goClean_rooted_image p
  by_cases h : containsSeq dotdot (goClean ('/' :: p)) = true
  · exact ⟨[], by simp, by rw [cleanPath_eq, if_pos h]; rfl, hdd⟩
  · exact ⟨L, hL, by rw [cleanPath_eq, if_neg h, hEq], hdd⟩

theorem cleanPath_fix (L : List Str) (h : ∀ s ∈ L, normalSeg s)
    (hdd : containsSeq dotdot ('/' :: joinSegs L) = false) :
    cleanPath ('/' :: joinSegs L) = '/' :: joinSegs L := by
  have hgc : goClean ('/' :: ('/' :: joinSegs L)) = '/' :: joinSegs L := by
    rw [goClean_doubleSlash, goClean_rooted_join L h]
  simp only [cleanPath, hgc, hdd]
  simp

theorem cleanPath_idem (p : Str) : cleanPath (cleanPath p) = cleanPath p := by
  obtain ⟨L, hL, hEq, hdd⟩ := cleanPath_image p
  rw [hEq]
  exact cleanPath_fix L hL (hEq ▸ hdd)

/-- **C4**: for every input path containing `..` segments, the lexical
clean step of the Path Normalizer yields a path rooted at `/` with no
`..` sequence; the function is total (it never errors), collapsing to
`/` whenever a traversal sequence survives cleaning. -/
theorem C4_clean_no_traversal (p : Str) (_h : containsSeq dotdot p = true) :
    (cleanPath p).head? = some '/' ∧
      containsSeq dotdot (cleanPath p) = false :=
  ⟨cleanPath_head p, cleanPath_no_dotdot p⟩

/-- Witness for `C4_clean_no_traversal` at the input `/../../etc/passwd`. -/
theorem C4_clean_no_traversal_witness :
    containsSeq dotdot (str "/../../etc/passwd") = true ∧
      ((cleanPath (str "/../../etc/passwd")).head? = some '/' ∧
        containsSeq dotdot (cleanPath (str "/../../etc/passwd")) = false) :=
  ⟨by decide, C4_clean_no_traversal (str "/../../etc/passwd") (by decide)⟩

/-! ## Idempotence analysis of the normalization pipeline (C2) -/

theorem bw_mem : ∀ (s a : Str), beginsWith s a = true → ∀ c ∈ a, c ∈ s := by
  intro s
  induction s with
  | nil =>
    intro a h c hc
    cases a with
    | nil => simp at hc
    | cons d t => simp [beginsWith] at h
  | cons e t ih =>
    intro a h c hc
    cases a with
    | nil => simp at hc
    | cons d u =>
      simp [beginsWith] at h
      rcases List.mem_cons.mp hc with rfl | hc
      · simp [h.1]
      · exact List.mem_cons_of_mem _ (ih u h.2 c hc)

theorem bw_slashfree_eq :
    ∀ (x s₀ u v : Str), '/' ∉ x → '/' ∉ s₀ →
      beginsWith (x ++ '/' :: u) (s₀ ++ '/' :: v) = true →
      x = s₀ ∧ beginsWith u v = true := by
  intro x
  induction x with
  | nil =>
    intro s₀ u v _ hs h
    cases s₀ with
    | nil => simpa [beginsWith] using h
    | cons d t =>
      simp [beginsWith] at h
      exact absurd (by rw [← h.1]; exact List.mem_cons_self _ _) hs
  | cons c xt ih =>
    intro s₀ u v hx hs h
    cases s₀ with
    | nil =>
      simp [beginsWith] at h
      exact absurd (by rw [h.1]; exact List.mem_cons_self _ _) hx
    | cons d t =>
      simp [beginsWith] at h
      obtain ⟨hcd, hrest⟩ := h
      have hxt : '/' ∉ xt := fun hm => hx (by simp [hm])
      have ht : '/' ∉ t := fun hm => hs (by simp [hm])
      obtain ⟨he, hbw⟩ := ih t u v hxt ht hrest
      exact ⟨by rw [hcd, he], hbw⟩

theorem joinSegs_head_decomp (L : List Str) (hL : ∀ s ∈ L, '/' ∉ s)
    (s₀ : Str) (hs₀ : '/' ∉ s₀)
    (h : beginsWith (joinSegs L) (s₀ ++ ['/']) = true) :
    ∃ M, L = s₀ :: M ∧ M ≠ [] ∧ joinSegs L = s₀ ++ '/' :: joinSegs M := by
  cases L with
  | nil =>
    exfalso
    cases s₀ <;> simp [joinSegs, beginsWith] at h
  | cons x xs =>
    cases xs with
    | nil =>
      exfalso
      have : '/' ∈ x := bw_mem x (s₀ ++ ['/']) h '/' (by simp)
      exact hL x (by simp) this
    | cons y ys =>
      have hj : joinSegs (x :: y :: ys) = x ++ '/' :: joinSegs (y :: ys) := rfl
      rw [hj] at h
      have h' : beginsWith (x ++ '/' :: joinSegs (y :: ys))
          (s₀ ++ '/' :: []) = true := by simpa using h
      obtain ⟨hxe, _⟩ := bw_slashfree_eq x s₀ (joinSegs (y :: ys)) []
        (hL x (by simp)) hs₀ h'
      exact ⟨y :: ys, by rw [hxe], by simp, by rw [hj, hxe]⟩

theorem containsSeq_dotdot_slash (x : Str) :
    containsSeq dotdot ('/' :: x) = containsSeq dotdot x :=
  containsSeq_cons_ne '.' ['.'] '/' (by decide) x

theorem strip_suffix_clean (L : List Str) (hL : ∀ s ∈ L, normalSeg s)
    (hdd : containsSeq dotdot ('/' :: joinSegs L) = false)
    (s₀ : Str) (hs₀ : '/' ∉ s₀)
    (hbw : beginsWith (joinSegs L) (s₀ ++ ['/']) = true) :
    cleanPath ('/' :: ('/' :: joinSegs L).drop (s₀.length + 2)) =
      '/' :: ('/' :: joinSegs L).drop (s₀.length + 2) := by
  have hslash : ∀ s ∈ L, '/' ∉ s := fun s hs => (hL s hs).2.2.2
  obtain ⟨M, hLM, hMne, hje⟩ := joinSegs_head_decomp L hslash s₀ hs₀ hbw
  have hMnormal : ∀ s ∈ M, normalSeg s := by
    intro s hs
    exact hL s (by rw [hLM]; simp [hs])
  have hdrop : ('/' :: joinSegs L).drop (s₀.length + 2) = joinSegs M := by
    rw [hje]
    have hsplit : '/' :: (s₀ ++ '/' :: joinSegs M) =
        ('/' :: (s₀ ++ ['/'])) ++ joinSegs M := by simp
    rw [hsplit]
    have hlen : ('/' :: (s₀ ++ ['/'])).length = s₀.length + 2 := by simp
    rw [← hlen, List.drop_left]
  rw [hdrop]
  apply cleanPath_fix M hMnormal
  cases hM : containsSeq dotdot ('/' :: joinSegs M) with
  | false => rfl
  | true =>
    exfalso
    have h1 : containsSeq dotdot (joinSegs M) = true := by
      rw [← containsSeq_dotdot_slash, hM]
    have h2 : containsSeq dotdot (joinSegs L) = true := by
      rw [hje]
      exact containsSeq_append_right dotdot s₀ ('/' :: joinSegs M)
        (containsSeq_cons_of dotdot '/' (joinSegs M) h1)
    rw [containsSeq_dotdot_slash, h2] at hdd
    simp at hdd

theorem aliasStep_idem (x : Str) : aliasStep (aliasStep x) = aliasStep x := by
  by_cases h : x = str "/storage/location/list"
  · subst h
    decide
  · have hx : aliasStep x = x := by
      simp [aliasStep, applyRewrite, rewriteStoragePath, h]
    rw [hx, hx]

/-- The output of the full normalization pipeline is a fixed point of
the lexical-clean step. -/
theorem normalizePath_clean (p : Str) :
    cleanPath (normalizePath p) = normalizePath p := by
  obtain ⟨L, hL, hEq, hdd⟩ := cleanPath_image p
  have hddL : containsSeq dotdot ('/' :: joinSegs L) = false := hEq ▸ hdd
  have hy : cleanPath (stripStep (cleanPath p)) = stripStep (cleanPath p) := by
    by_cases h1 : beginsWith (cleanPath p) (str "/index.php/") = true
    · have hs : stripStep (cleanPath p) =
          '/' :: (cleanPath p).drop (str "/index.php/").length := by
        simp [stripStep, applyRewrite, stripLegacyFrontController, h1]
      rw [hs, hEq]
      have hpre : (str "/index.php/") = '/' :: (str "index.php" ++ ['/']) := by
        decide
      rw [hEq, hpre] at h1
      simp only [beginsWith] at h1
      have hbw : beginsWith (joinSegs L) (str "index.php" ++ ['/']) = true := by
        simpa using h1
      have hlen : (str "/index.php/").length = (str "index.php").length + 2 := by
        decide
      rw [hlen]
      exact strip_suffix_clean L hL hddL (str "index.php") (by decide) hbw
    · by_cases h2 : beginsWith (cleanPath p) (str "/qubit_dev.php/") = true
      · have hs : stripStep (cleanPath p) =
            '/' :: (cleanPath p).drop (str "/qubit_dev.php/").length := by
          simp [stripStep, applyRewrite, stripLegacyFrontController, h1, h2]
        rw [hs, hEq]
        have hpre : (str "/qubit_dev.php/") =
            '/' :: (str "qubit_dev.php" ++ ['/']) := by decide
        rw [hEq, hpre] at h2
        simp only [beginsWith] at h2
        have hbw : beginsWith (joinSegs L) (str "qubit_dev.php" ++ ['/']) = true := by
          simpa using h2
        have hlen : (str "/qubit_dev.php/").length =
            (str "qubit_dev.php").length + 2 := by decide
        rw [hlen]
        exact strip_suffix_clean L hL hddL (str "qubit_dev.php") (by decide) hbw
      · by_cases h3 : cleanPath p = str "/index.php" ∨ cleanPath p = str "/qubit_dev.php"
        · have hcond : (decide (cleanPath p = str "/index.php") ||
              decide (cleanPath p = str "/qubit_dev.php")) = true := by
            rcases h3 with h | h <;> simp [h]
          have hs : stripStep (cleanPath p) = str "/" := by
            simp [stripStep, applyRewrite, stripLegacyFrontController, h1, h2, hcond]
            intro hcontra
            exact absurd hcontra (by decide)
          rw [hs]
          decide
        · push_neg at h3
          have hcond : (decide (cleanPath p = str "/index.php") ||
              decide (cleanPath p = str "/qubit_dev.php")) = false := by
            simp [h3.1, h3.2]
          have hs : stripStep (cleanPath p) = cleanPath p := by
            simp [stripStep, applyRewrite, stripLegacyFrontController, h1, h2, hcond]
          rw [hs]
          exact cleanPath_idem p
  have hnp : normalizePath p = aliasStep (stripStep (cleanPath p)) := rfl
  by_cases ha : stripStep (cleanPath p) = str "/storage/location/list"
  · have h4 : aliasStep (stripStep (cleanPath p)) = str "/storage/list" := by
      simp [aliasStep, applyRewrite, rewriteStoragePath, ha]
      intro hcontra
      exact absurd hcontra (by decide)
    rw [hnp, h4]
    decide
  · have h4 : aliasStep (stripStep (cleanPath p)) = stripStep (cleanPath p) := by
      simp [aliasStep, applyRewrite, rewriteStoragePath, ha]
    rw [hnp, h4]
    exact hy

/-- **C2 counterexample**: the claim that the normalization pipeline —
and each of its steps — is idempotent fails on the code.  On the path
`/index.php/index.php/a` one pass of the pipeline (and of the
entry-point-stripping step alone) yields `/index.php/a`, while a
second pass strips again to `/a`. -/
theorem C2_pipeline_counterexample :
    normalizePath (normalizePath (str "/index.php/index.php/a")) ≠
        normalizePath (str "/index.php/index.php/a") ∧
      stripStep (stripStep (str "/index.php/index.php/a")) ≠
        stripStep (str "/index.php/index.php/a") := by
  decide

/-- **C2 (amended)**: the lexical-clean step and the alias-rewriting
step are each idempotent, and the full pipeline applied to its own
output is a no-op whenever that output is not again a legacy
entry-point path (the entry-point-stripping step, and with it the
pipeline, is not idempotent on paths with nested entry-point
prefixes, see `C2_pipeline_counterexample`). -/
theorem C2_normalization_idem_amended (p : Str) :
    cleanPath (cleanPath p) = cleanPath p ∧
    aliasStep (aliasStep p) = aliasStep p ∧
    (stripLegacyFrontController (normalizePath p) = [] →
      normalizePath (normalizePath p) = normalizePath p) := by
  refine ⟨cleanPath_idem p, aliasStep_idem p, ?_⟩
  intro hq
  have hclean := normalizePath_clean p
  have hexp : normalizePath (normalizePath p) =
      aliasStep (stripStep (cleanPath (normalizePath p))) := rfl
  rw [hexp, hclean]
  have hstrip : stripStep (normalizePath p) = normalizePath p := by
    simp [stripStep, applyRewrite, hq]
  rw [hstrip]
  exact aliasStep_idem (stripStep (cleanPath p))

/-- Witness for `C2_normalization_idem_amended` at `/a//b/./c`. -/
theorem C2_normalization_idem_amended_witness :
    cleanPath (cleanPath (str "/a//b/./c")) = cleanPath (str "/a//b/./c") ∧
    aliasStep (aliasStep (str "/a//b/./c")) = aliasStep (str "/a//b/./c") ∧
    normalizePath (normalizePath (str "/a//b/./c")) =
      normalizePath (str "/a//b/./c") :=
  ⟨(C2_normalization_idem_amended (str "/a//b/./c")).1,
   (C2_normalization_idem_amended (str "/a//b/./c")).2.1,
   (C2_normalization_idem_amended (str "/a//b/./c")).2.2 (by decide)⟩

/-! ## The routing claims (C3, C9, C10) -/

theorem staticAssetMatch_pre (p : Str) (h : staticAssetMatch p = true) :
    ∃ fam ∈ staticFams, beginsWith p ('/' :: (fam ++ ['/'])) = true := by
  rw [staticAssetMatch, List.any_eq_true] at h
  obtain ⟨fam, hfam, hex⟩ := h
  rw [List.any_eq_true] at hex
  obtain ⟨ext, _, hfm⟩ := hex
  rw [famMatch] at hfm
  simp only [Bool.and_eq_true] at hfm
  exact ⟨fam, hfam, hfm.1.1.1⟩

theorem downloadAssetMatch_pre (p : Str) (h : downloadAssetMatch p = true) :
    beginsWith p (str "/downloads/") = true := by
  rw [downloadAssetMatch, List.any_eq_true] at h
  obtain ⟨ext, _, hfm⟩ := h
  rw [famMatch] at hfm
  simp only [Bool.and_eq_true] at hfm
  exact hfm.1.1.1

/-- No static-family path begins with any of the three prefixes
checked earlier in the policy chain; packaged for one literal
prefix. -/
theorem excl_from_pre (pre : Str)
    (h1 : (beginsWith pre (str "/private/") ||
      beginsWith (str "/private/") pre) = false)
    (h2 : (beginsWith pre (str "/uploads/r/") ||
      beginsWith (str "/uploads/r/") pre) = false)
    (h3 : (beginsWith pre (str "/index.php/") ||
      beginsWith (str "/index.php/") pre) = false)
    (h4 : (beginsWith pre (str "/qubit_dev.php/") ||
      beginsWith (str "/qubit_dev.php/") pre) = false)
    (h5 : beginsWith (str "/index.php") pre = false)
    (h6 : beginsWith (str "/qubit_dev.php") pre = false)
    (p : Str) (hp : beginsWith p pre = true) :
    privatePathMatch p = false ∧ uploadsConfMatch p = false ∧
      phpEntryMatch p = false := by
  refine ⟨?_, ?_, ?_⟩
  · show beginsWith p (str "/private/") = false
    exact no_two_pre pre _ h1 p hp
  · have hu := no_two_pre pre _ h2 p hp
    simp [uploadsConfMatch, hu]
  · have hb3 := no_two_pre pre _ h3 p hp
    have hb4 := no_two_pre pre _ h4 p hp
    have he1 : p ≠ str "/index.php" := bw_exact_ne pre _ h5 p hp
    have he2 : p ≠ str "/qubit_dev.php" := bw_exact_ne pre _ h6 p hp
    simp [phpEntryMatch, hb3, hb4, he1, he2]

/-- A path matching the static families matches none of the three
higher-priority policy rules. -/
theorem matchesStatic_excl (p : Str) (h : matchesStatic p = true) :
    privatePathMatch p = false ∧ uploadsConfMatch p = false ∧
      phpEntryMatch p = false := by
  rw [matchesStatic] at h
  simp only [Bool.or_eq_true] at h
  rcases h with (hs | hd) | hp
  · obtain ⟨fam, hfam, hb⟩ := staticAssetMatch_pre p hs
    fin_cases hfam <;>
      exact excl_from_pre _ (by decide) (by decide) (by decide) (by decide)
        (by decide) (by decide) p hb
  · exact excl_from_pre _ (by decide) (by decide) (by decide) (by decide)
      (by decide) (by decide) p (downloadAssetMatch_pre p hd)
  · rw [publicFileMatch] at hp
    simp only [Bool.or_eq_true, Bool.and_eq_true, decide_eq_true_eq] at hp
    rcases hp with ((he | he) | he) | ⟨hb, _⟩
    · subst he; decide
    · subst he; decide
    · subst he; decide
    · exact excl_from_pre _ (by decide) (by decide) (by decide) (by decide)
        (by decide) (by decide) p hb

/-- **C3**: a normalized path matching a static-asset family pattern
for which no candidate root yields a file is routed to
`static_missing` (a 404); it is never forwarded to the legacy entry
point and never reaches the uploaded-artifact, direct-file or default
rules. -/
theorem C3_static_miss_404 (fs : RFS) (h : AtomHandler) (r : HTTPRequest)
    (p : Str) (hm : matchesStatic p = true)
    (hmiss : staticAssetPath fs h p = none) :
    decideRoute fs h r p = RouteLabel.static_missing := by
  obtain ⟨h1, h2, h3⟩ := matchesStatic_excl p hm
  simp [decideRoute, h1, h2, h3, hm, hmiss]

/-- Witness for `C3_static_miss_404`: `/css/a.css` on an empty
filesystem. -/
theorem C3_static_miss_404_witness :
    matchesStatic (str "/css/a.css") = true ∧
      staticAssetPath (fun _ => none) ⟨str "/root", []⟩ (str "/css/a.css") = none ∧
      decideRoute (fun _ => none) ⟨str "/root", []⟩ ⟨str "GET", [], []⟩
        (str "/css/a.css") = RouteLabel.static_missing :=
  ⟨by decide, by decide,
    C3_static_miss_404 (fun _ => none) ⟨str "/root", []⟩ ⟨str "GET", [], []⟩
      (str "/css/a.css") (by decide) (by decide)⟩

theorem firstStaticHit_all_dirs (fs : RFS) (l : List Str)
    (h : ∀ c ∈ l, fs c = some true) : firstStaticHit fs l = none := by
  induction l with
  | nil => rfl
  | cons c rest ih =>
    have hc := h c (by simp)
    simp [firstStaticHit, hc]
    exact ih fun d hd => h d (by simp [hd])

/-- **C9**: the Static Asset Resolver searches candidate roots in
priority order.  The overlay root is consulted first but only for
downloadable-document paths — a download path whose overlay candidate
stats as a regular file is resolved to the overlay candidate no
matter what the primary root holds; for non-download paths only the
primary root is consulted; and when every candidate is a directory
the resolution is not-found. -/
theorem C9_static_root_priority (fs : RFS) (h : AtomHandler) (p : Str) :
    (h.atomDataDir ≠ [] → downloadAssetMatch p = true →
      fs (fpJoin h.atomDataDir (relOf p)) = some false →
      staticAssetPath fs h p = some (fpJoin h.atomDataDir (relOf p))) ∧
    (downloadAssetMatch p = false →
      staticAssetPath fs h p = firstStaticHit fs [fpJoin h.phpRoot (relOf p)]) ∧
    ((∀ c ∈ staticCandidates h p, fs c = some true) →
      staticAssetPath fs h p = none) := by
  refine ⟨?_, ?_, ?_⟩
  · intro hne hdl hov
    have hcond : (!h.atomDataDir.isEmpty && downloadAssetMatch p) = true := by
      simp [List.isEmpty_iff, hne, hdl]
    simp [staticAssetPath, staticCandidates, hcond, firstStaticHit, hov]
  · intro hdl
    have hcond : (!h.atomDataDir.isEmpty && downloadAssetMatch p) = false := by
      simp [hdl]
    simp [staticAssetPath, staticCandidates, hcond]
  · intro hall
    exact firstStaticHit_all_dirs fs (staticCandidates h p) hall

/-- Witness for `C9_static_root_priority`, exercising each conjunct:
an overlay hit for a download path present in both roots, a
non-download path, and an all-directories filesystem. -/
theorem C9_static_root_priority_witness :
    staticAssetPath
        (fun s => if s = str "/data/downloads/a.pdf" then some false
          else if s = str "/root/downloads/a.pdf" then some false else none)
        ⟨str "/root", str "/data"⟩ (str "/downloads/a.pdf") =
      some (str "/data/downloads/a.pdf") ∧
    staticAssetPath (fun _ => some false) ⟨str "/root", str "/data"⟩
        (str "/css/a.css") =
      firstStaticHit (fun _ => some false) [str "/root/css/a.css"] ∧
    staticAssetPath (fun _ => some true) ⟨str "/root", str "/data"⟩
        (str "/downloads/a.pdf") = none := by
  refine ⟨?_, ?_, ?_⟩
  · have := (C9_static_root_priority
      (fun s => if s = str "/data/downloads/a.pdf" then some false
        else if s = str "/root/downloads/a.pdf" then some false else none)
      ⟨str "/root", str "/data"⟩ (str "/downloads/a.pdf")).1
      (by decide) (by decide) (by decide)
    simpa using this
  · have := (C9_static_root_priority (fun _ => some false)
      ⟨str "/root", str "/data"⟩ (str "/css/a.css")).2.1 (by decide)
    simpa using this
  · exact (C9_static_root_priority (fun _ => some true)
      ⟨str "/root", str "/data"⟩ (str "/downloads/a.pdf")).2.2 (by decide)

/-- **C10**: the routing decision is a function of the normalized path
and the filesystem only — `decideRoute` yields the same label for any
two requests with equal normalized paths, whatever their method,
headers or body. -/
theorem C10_route_decision_pure (fs : RFS) (h : AtomHandler)
    (r₁ r₂ : HTTPRequest) (p : Str) :
    decideRoute fs h r₁ p = decideRoute fs h r₂ p := rfl

/-! ## The boot-time conflict handling (C1) -/

/-- **C1 counterexample**: at a concrete archive-state conflict (the
target is a non-empty directory, no marker, `force = false`),
`EnsureExtracted` does return the distinct `ErrAtomRootExists`, but
`ensureAtomRoot` — the boot-sequence wrapper — swallows exactly that
error and reports success, so startup continues and the listener is
still opened; the claim that the boot sequence returns an error is
false. -/
theorem C1_boot_counterexample :
    (EnsureExtracted ⟨[], str "d1", true⟩ (str "/atom") false
        [(str "/atom", ⟨.dir, []⟩), (str "/atom/foo", ⟨.reg, str "x"⟩)]).2.2 =
      some errAtomRootExists ∧
    (ensureAtomRoot ⟨[], str "d1", true⟩ false
        [(str "/atom", ⟨.dir, []⟩), (str "/atom/foo", ⟨.reg, str "x"⟩)]
        (str "/atom")).2 = none := by
  decide

/-- **C1 (amended)**: on an archive state conflict (non-empty target
directory, missing or mismatched marker, `force = false`)
`EnsureExtracted` returns the distinct `ErrAtomRootExists` error with
`didExtract = false` and the filesystem untouched; but
`ensureAtomRoot` treats exactly this error as non-fatal — it logs and
returns success, so the boot sequence continues to open the HTTP
listener rather than aborting. -/
theorem C1_conflict_nonfatal (snap : Snapshot) (target : Str) (fs : FS)
    (n : FNode)
    (ht : trimSpace target ≠ [])
    (hstat : statFS fs target = some n) (hdir : n.kind = FKind.dir)
    (hmm : markerMatches snap fs target = false)
    (hne : dirEmptyFS fs target = false) :
    EnsureExtracted snap target false fs = (fs, false, some errAtomRootExists) ∧
      ensureAtomRoot snap false fs target = (fs, none) := by
  have h1 : EnsureExtracted snap target false fs =
      (fs, false, some errAtomRootExists) := by
    simp [EnsureExtracted, ht, hstat, hdir, hmm, hne]
  exact ⟨h1, by simp [ensureAtomRoot, h1]⟩

/-- Witness for `C1_conflict_nonfatal` at the concrete conflict of
`C1_boot_counterexample`. -/
theorem C1_conflict_nonfatal_witness :
    EnsureExtracted ⟨[], str "d1", true⟩ (str "/atom") false
        [(str "/atom", ⟨.dir, []⟩), (str "/atom/foo", ⟨.reg, str "x"⟩)] =
      ([(str "/atom", ⟨.dir, []⟩), (str "/atom/foo", ⟨.reg, str "x"⟩)],
        false, some errAtomRootExists) ∧
    ensureAtomRoot ⟨[], str "d1", true⟩ false
        [(str "/atom", ⟨.dir, []⟩), (str "/atom/foo", ⟨.reg, str "x"⟩)]
        (str "/atom") =
      ([(str "/atom", ⟨.dir, []⟩), (str "/atom/foo", ⟨.reg, str "x"⟩)], none) :=
  C1_conflict_nonfatal ⟨[], str "d1", true⟩ (str "/atom")
    [(str "/atom", ⟨.dir, []⟩), (str "/atom/foo", ⟨.reg, str "x"⟩)]
    ⟨.dir, []⟩ (by decide) (by decide) (by decide) (by decide) (by decide)

/-! ## Inversion and preservation lemmas for the filesystem operations -/

/-- A directory node sits at `p`. -/
def isDirAt (fs : FS) (p : Str) : Prop :=
  ∃ n, statFS fs p = some n ∧ n.kind = FKind.dir

theorem writeFileFS_ok (fs : FS) (p d : Str) (fs' : FS)
    (h : writeFileFS fs p d = (fs', none)) :
    fs' = insertFS fs p ⟨.reg, d⟩ ∧ ¬ isDirAt fs p := by
  rw [writeFileFS] at h
  cases hs : statFS fs p with
  | none =>
    rw [hs] at h
    refine ⟨(Prod.mk.injEq _ _ _ _ ▸ h).1.symm, ?_⟩
    rintro ⟨n, hn, -⟩
    rw [hs] at hn
    cases hn
  | some n =>
    rw [hs] at h
    by_cases hk : n.kind = FKind.dir
    · simp [hk] at h
    · simp only [hk, if_false] at h
      refine ⟨(Prod.mk.injEq _ _ _ _ ▸ h).1.symm, ?_⟩
      rintro ⟨m, hm, hmk⟩
      rw [hs] at hm
      cases hm
      exact hk hmk

theorem writeFileFS_fst (fs : FS) (p d : Str) :
    (writeFileFS fs p d).1 = fs ∨
      (writeFileFS fs p d).1 = insertFS fs p ⟨.reg, d⟩ ∧ ¬ isDirAt fs p := by
  rw [writeFileFS]
  cases hs : statFS fs p with
  | none =>
    right
    refine ⟨rfl, ?_⟩
    rintro ⟨n, hn, -⟩
    rw [hs] at hn
    cases hn
  | some n =>
    by_cases hk : n.kind = FKind.dir
    · left; simp [hk]
    · right
      refine ⟨by simp [hk], ?_⟩
      rintro ⟨m, hm, hmk⟩
      rw [hs] at hm
      cases hm
      exact hk hmk

theorem mkdirAllFS_fst (fs : FS) (p : Str) :
    (mkdirAllFS fs p).1 = fs ∨
      (mkdirAllFS fs p).1 = insertFS fs p ⟨.dir, []⟩ ∧ statFS fs p = none := by
  rw [mkdirAllFS]
  cases hs : statFS fs p with
  | none => right; exact ⟨rfl, rfl⟩
  | some n => by_cases hk : n.kind = FKind.dir <;> left <;> simp [hk]

theorem mkdirAllFS_ok_dir (fs : FS) (p : Str) (fs' : FS)
    (h : mkdirAllFS fs p = (fs', none)) : isDirAt fs' p := by
  rw [mkdirAllFS] at h
  cases hs : statFS fs p with
  | none =>
    rw [hs] at h
    have hfs : fs' = insertFS fs p ⟨.dir, []⟩ := (Prod.mk.injEq _ _ _ _ ▸ h).1.symm
    refine ⟨⟨.dir, []⟩, ?_, rfl⟩
    rw [hfs]
    show lookupFS (insertFS fs p ⟨.dir, []⟩) p = _
    rw [lookupFS_insert]
    simp
  | some n =>
    rw [hs] at h
    by_cases hk : n.kind = FKind.dir
    · simp only [hk] at h
      have hfs : fs' = fs := by simpa using (Prod.mk.injEq _ _ _ _ ▸ h).1.symm
      exact ⟨n, hfs ▸ hs, hk⟩
    · simp [hk] at h

theorem symlinkFS_fst (fs : FS) (l p : Str) :
    (symlinkFS fs l p).1 = fs ∨
      (symlinkFS fs l p).1 = insertFS fs p ⟨.sym, l⟩ ∧ statFS fs p = none := by
  rw [symlinkFS]
  cases hs : statFS fs p with
  | none => right; exact ⟨rfl, rfl⟩
  | some n => left; rfl

theorem isDirAt_insert_other (fs : FS) (p : Str) (n : FNode) (q : Str)
    (hpq : p ≠ q) (hd : isDirAt fs q) : isDirAt (insertFS fs p n) q := by
  obtain ⟨m, hm, hk⟩ := hd
  refine ⟨m, ?_, hk⟩
  show lookupFS (insertFS fs p n) q = some m
  rw [lookupFS_insert, if_neg (fun h => hpq h.symm)]
  exact hm

theorem isDirAt_stat_ne (fs : FS) (p q : Str) (hd : isDirAt fs q)
    (hs : statFS fs p = none) : p ≠ q := by
  rintro rfl
  obtain ⟨m, hm, -⟩ := hd
  rw [hs] at hm
  cases hm

theorem mkdirAllFS_preserves_dir (fs : FS) (p q : Str) (hd : isDirAt fs q) :
    isDirAt (mkdirAllFS fs p).1 q := by
  rcases mkdirAllFS_fst fs p with h | ⟨h, hs⟩
  · rw [h]; exact hd
  · rw [h]
    exact isDirAt_insert_other fs p _ q (isDirAt_stat_ne fs p q hd hs) hd

theorem writeFileFS_preserves_dir (fs : FS) (p d : Str) (q : Str)
    (hd : isDirAt fs q) : isDirAt (writeFileFS fs p d).1 q := by
  rcases writeFileFS_fst fs p d with h | ⟨h, hnd⟩
  · rw [h]; exact hd
  · rw [h]
    have hpq : p ≠ q := by
      rintro rfl
      exact hnd hd
    exact isDirAt_insert_other fs p _ q hpq hd

theorem symlinkFS_preserves_dir (fs : FS) (l p : Str) (q : Str)
    (hd : isDirAt fs q) : isDirAt (symlinkFS fs l p).1 q := by
  rcases symlinkFS_fst fs l p with h | ⟨h, hs⟩
  · rw [h]; exact hd
  · rw [h]
    exact isDirAt_insert_other fs p _ q (isDirAt_stat_ne fs p q hd hs) hd

theorem extractEntry_preserves_dir (target : Str) (fs : FS) (e : TarEntry)
    (q : Str) (hd : isDirAt fs q) : isDirAt (extractEntry target fs e).1 q := by
  rw [extractEntry]
  by_cases hn : e.name = []
  · simpa [hn] using hd
  · rw [if_neg hn]
    by_cases hb : (beginsWith (goClean e.name) dotdot ||
        decide ((goClean e.name).head? = some '/')) = true
    · simpa [hb] using hd
    · rw [if_neg hb]
      cases e.typeflag with
      | dir => exact mkdirAllFS_preserves_dir fs _ q hd
      | sym =>
        cases hmk : mkdirAllFS fs (dirOf (fpJoin target (goClean e.name))) with
        | mk fs₁ err =>
          have hd₁ : isDirAt fs₁ q := by
            have := mkdirAllFS_preserves_dir fs
              (dirOf (fpJoin target (goClean e.name))) q hd
            rwa [hmk] at this
          cases err with
          | some e₀ => simpa [hmk] using hd₁
          | none =>
            simpa [hmk] using symlinkFS_preserves_dir fs₁ e.linkname _ q hd₁
      | reg =>
        cases hmk : mkdirAllFS fs (dirOf (fpJoin target (goClean e.name))) with
        | mk fs₁ err =>
          have hd₁ : isDirAt fs₁ q := by
            have := mkdirAllFS_preserves_dir fs
              (dirOf (fpJoin target (goClean e.name))) q hd
            rwa [hmk] at this
          cases err with
          | some e₀ => simpa [hmk] using hd₁
          | none =>
            simpa [hmk] using writeFileFS_preserves_dir fs₁ _ e.content q hd₁
      | other => simpa using hd

theorem extractEntries_preserves_dir (target : Str) (l : List TarEntry) :
    ∀ (fs : FS) (q : Str), isDirAt fs q →
      isDirAt (extractEntries target fs l).1 q := by
  induction l with
  | nil => intro fs q hd; simpa [extractEntries] using hd
  | cons e rest ih =>
    intro fs q hd
    rw [extractEntries]
    cases he : extractEntry target fs e with
    | mk fs₁ err =>
      have hd₁ : isDirAt fs₁ q := by
        have := extractEntry_preserves_dir target fs e q hd
        rwa [he] at this
      cases err with
      | some e₀ => simpa using hd₁
      | none => simpa using ih fs₁ q hd₁

theorem extractArchive_ok_dir (snap : Snapshot) (target : Str) (fs fs' : FS)
    (h : extractArchive snap target fs = (fs', none)) : isDirAt fs' target := by
  rw [extractArchive] at h
  by_cases ha : (!snap.available) = true
  · simp [ha] at h
  · rw [if_neg ha] at h
    cases hmk : mkdirAllFS fs target with
    | mk fs₁ err =>
      rw [hmk] at h
      cases err with
      | some e₀ => simp at h
      | none =>
        have hd₁ : isDirAt fs₁ target := mkdirAllFS_ok_dir fs target fs₁ hmk
        have h' : extractEntries target fs₁ snap.entries = (fs', none) := h
        have := extractEntries_preserves_dir target snap.entries fs₁ target hd₁
        rw [h'] at this
        exact this

theorem writeFileFS_ok_lookup (fs : FS) (p d : Str) (fs' : FS)
    (h : writeFileFS fs p d = (fs', none)) :
    lookupFS fs' p = some ⟨.reg, d⟩ ∧
      (∀ q, q ≠ p → lookupFS fs' q = lookupFS fs q) ∧ ¬ isDirAt fs p := by
  obtain ⟨hfs, hnd⟩ := writeFileFS_ok fs p d fs' h
  subst hfs
  refine ⟨?_, ?_, hnd⟩
  · rw [lookupFS_insert]; simp
  · intro q hq
    rw [lookupFS_insert, if_neg hq]

/-! ## Inversion of a successful `EnsureExtracted` run -/

theorem finish_ok_inv (snap : Snapshot) (target : Str) (fsX fs₁ : FS)
    (h : finishExtract snap target fsX = (fs₁, true, none)) :
    ∃ fsE, extractArchive snap target fsX = (fsE, none) ∧
      writeFileFS fsE (markerPath target) snap.digest = (fs₁, none) := by
  rw [finishExtract] at h
  cases he : extractArchive snap target fsX with
  | mk fsE err =>
    rw [he] at h
    cases err with
    | some e₀ => simp at h
    | none =>
      have h' : (match writeFileFS fsE (markerPath target) snap.digest with
        | (fs₂, some err) => (fs₂, true, some err)
        | (fs₂, none) => (fs₂, true, none)) = (fs₁, true, none) := h
      cases hw : writeFileFS fsE (markerPath target) snap.digest with
      | mk fs₂ err₂ =>
        rw [hw] at h'
        cases err₂ with
        | some e₀ => simp at h'
        | none =>
          simp at h'
          exact ⟨fsE, rfl, by rw [hw, h']⟩

theorem ensure_ok_inv (snap : Snapshot) (target : Str) (force : Bool)
    (fs fs₁ : FS)
    (h : EnsureExtracted snap target force fs = (fs₁, true, none)) :
    trimSpace target ≠ [] ∧
      ∃ fsX, finishExtract snap target fsX = (fs₁, true, none) := by
  rw [EnsureExtracted] at h
  split at h
  · simp at h
  · next ht =>
    refine ⟨ht, ?_⟩
    split at h
    · split at h
      · simp at h
      · split at h
        · simp at h
        · split at h
          · exact ⟨removeAllFS fs target, h⟩
          · split at h
            · exact ⟨fs, h⟩
            · simp at h
    · exact ⟨fs, h⟩

/-- After a successful extracting run, the target is a directory and
the Version Marker holds the snapshot digest. -/
theorem ensure_ok_state (snap : Snapshot) (target : Str) (force : Bool)
    (fs fs₁ : FS)
    (h : EnsureExtracted snap target force fs = (fs₁, true, none)) :
    trimSpace target ≠ [] ∧ isDirAt fs₁ target ∧
      lookupFS fs₁ (markerPath target) = some ⟨.reg, snap.digest⟩ := by
  obtain ⟨ht, fsX, hfin⟩ := ensure_ok_inv snap target force fs fs₁ h
  obtain ⟨fsE, hext, hwr⟩ := finish_ok_inv snap target fsX fs₁ hfin
  have hdirE : isDirAt fsE target := extractArchive_ok_dir snap target fsX fsE hext
  obtain ⟨hlk, hpres, hnd⟩ := writeFileFS_ok_lookup fsE (markerPath target)
    snap.digest fs₁ hwr
  have hmp : target ≠ markerPath target := by
    rintro heq
    exact hnd (heq ▸ hdirE)
  have hdir₁ : isDirAt fs₁ target := by
    obtain ⟨n, hn, hk⟩ := hdirE
    exact ⟨n, by rw [statFS] at hn ⊢; rw [hpres target hmp]; exact hn, hk⟩
  exact ⟨ht, hdir₁, hlk⟩

/-- After a successful extracting run, the marker matches the same
snapshot (its digest being already whitespace-trimmed). -/
theorem ensure_ok_marker (snap : Snapshot) (target : Str) (force : Bool)
    (fs fs₁ : FS)
    (hds : trimSpace snap.digest = snap.digest)
    (h : EnsureExtracted snap target force fs = (fs₁, true, none)) :
    markerMatches snap fs₁ target = true := by
  obtain ⟨-, -, hlk⟩ := ensure_ok_state snap target force fs fs₁ h
  simp [markerMatches, readFileFS, statFS, hlk, hds]

/-- **C6**: whenever a call to `EnsureExtracted` extracts successfully
(`didExtract = true`, no error), an immediately repeated call with the
same snapshot and target is a pure no-op: it returns
`didExtract = false` with no error and leaves the extracted tree
untouched (the snapshot digest, a hex string, carries no surrounding
whitespace). -/
theorem C6_ensure_idempotent (snap : Snapshot) (target : Str) (force : Bool)
    (fs fs₁ : FS)
    (hds : trimSpace snap.digest = snap.digest)
    (h : EnsureExtracted snap target force fs = (fs₁, true, none)) :
    EnsureExtracted snap target force fs₁ = (fs₁, false, none) := by
  obtain ⟨ht, hdir, -⟩ := ensure_ok_state snap target force fs fs₁ h
  have hmm := ensure_ok_marker snap target force fs fs₁ hds h
  obtain ⟨n, hn, hk⟩ := hdir
  rw [EnsureExtracted, if_neg ht]
  rw [show statFS fs₁ target = some n from hn]
  simp [hk, hmm]

/-- A one-entry snapshot used to witness the materializer claims. -/
def C6snap : Snapshot := ⟨[⟨str "index.php", .reg, [], str "x"⟩], str "d1", true⟩

/-- The filesystem state after extracting `C6snap` into `/atom`. -/
def C6fs1 : FS := (EnsureExtracted C6snap (str "/atom") false []).1

/-- Witness for `C6_ensure_idempotent`: a concrete first extraction
into an empty filesystem followed by the no-op second call. -/
theorem C6_ensure_idempotent_witness :
    EnsureExtracted C6snap (str "/atom") false C6fs1 = (C6fs1, false, none) :=
  C6_ensure_idempotent C6snap (str "/atom") false [] C6fs1 (by decide) (by decide)

/-! ## Well-formed target paths and the marker location -/

/-- A well-formed extraction target: a rooted, already-clean path
other than the filesystem root. -/
def goodTarget (t : Str) : Prop :=
  t.head? = some '/' ∧ goClean t = t ∧ t ≠ str "/"

theorem goodTarget_decomp (t : Str) (hgt : goodTarget t) :
    ∃ L, L ≠ [] ∧ (∀ s ∈ L, normalSeg s) ∧ t = '/' :: joinSegs L := by
  obtain ⟨hhead, hclean, hne⟩ := hgt
  obtain ⟨rest, rfl⟩ : ∃ rest, t = '/' :: rest := by
    cases t with
    | nil => simp at hhead
    | cons c cs =>
      simp at hhead
      exact ⟨cs, by rw [hhead]⟩
  obtain ⟨L, hL, hEq⟩ := goClean_rooted_image rest
  have hrest : '/' :: rest = '/' :: joinSegs L := by rw [← hclean, hEq]
  refine ⟨L, ?_, hL, hrest⟩
  rintro rfl
  have h0 : rest = [] := by simpa using hrest
  subst h0
  exact hne (by decide)

theorem fpJoin_clean_seg (t : Str) (hgt : goodTarget t) (m : Str)
    (hm : normalSeg m) : fpJoin t m = t ++ '/' :: m := by
  obtain ⟨L, hLne, hL, hEq⟩ := goodTarget_decomp t hgt
  have hja : joinSegs (L ++ [m]) = joinSegs L ++ '/' :: m :=
    joinSegs_append L [m] hLne (by simp)
  have hLm : ∀ s ∈ L ++ [m], normalSeg s := by
    intro s hs
    rcases List.mem_append.mp hs with hs | hs
    · exact hL s hs
    · simp at hs
      exact hs ▸ hm
  subst hEq
  rw [fpJoin, if_neg (by simp), if_neg hm.1]
  calc goClean (('/' :: joinSegs L) ++ '/' :: m)
      = goClean ('/' :: joinSegs (L ++ [m])) := by rw [hja]; simp
    _ = '/' :: joinSegs (L ++ [m]) := goClean_rooted_join _ hLm
    _ = ('/' :: joinSegs L) ++ '/' :: m := by rw [hja]; simp

theorem markerName_normal : normalSeg markerName := by
  refine ⟨by decide, by decide, by decide, by decide⟩

theorem markerPath_eq (t : Str) (hgt : goodTarget t) :
    markerPath t = t ++ '/' :: markerName :=
  fpJoin_clean_seg t hgt markerName markerName_normal

theorem markerPath_under (t : Str) (hgt : goodTarget t) :
    strictlyUnder t (markerPath t) = true := by
  rw [markerPath_eq t hgt, strictlyUnder]
  have : t ++ '/' :: markerName = (t ++ ['/']) ++ markerName := by simp
  rw [this]
  exact beginsWith_append _ _

/-- After a successful extraction into a well-formed target, the
target directory is non-empty (the marker file lies inside it). -/
theorem ensure_ok_not_empty (snap : Snapshot) (target : Str) (force : Bool)
    (fs fs₁ : FS) (hgt : goodTarget target)
    (h : EnsureExtracted snap target force fs = (fs₁, true, none)) :
    dirEmptyFS fs₁ target = false := by
  obtain ⟨-, hdir, hlk⟩ := ensure_ok_state snap target force fs fs₁ h
  obtain ⟨n, hn, hk⟩ := hdir
  have hmem : (markerPath target, (⟨.reg, snap.digest⟩ : FNode)) ∈ fs₁ :=
    lookupFS_mem fs₁ _ _ hlk
  have hall : (fs₁.all fun e => !(strictlyUnder target e.1)) = false := by
    cases hE : fs₁.all fun e => !(strictlyUnder target e.1) with
    | false => rfl
    | true =>
      exfalso
      rw [List.all_eq_true] at hE
      have := hE _ hmem
      rw [markerPath_under target hgt] at this
      simp at this
  rw [dirEmptyFS, hn, hall]
  simp

/-- After successfully extracting snapshot `A`, the marker does not
match any snapshot with a different digest. -/
theorem ensure_ok_marker_other (A B : Snapshot) (target : Str) (force : Bool)
    (fs fs₁ : FS)
    (hds : trimSpace A.digest = A.digest) (hne : A.digest ≠ B.digest)
    (h : EnsureExtracted A target force fs = (fs₁, true, none)) :
    markerMatches B fs₁ target = false := by
  obtain ⟨-, -, hlk⟩ := ensure_ok_state A target force fs fs₁ h
  simp [markerMatches, readFileFS, statFS, hlk, hds, hne]

/-- **C7**: after snapshot `A` has been successfully extracted into a
well-formed target, a call with a different snapshot `B` and
`force = false` fails with the distinct "root exists and differs"
error, leaving everything untouched; with `force = true` the call
removes the whole target tree, re-extracts `B` fresh, and — whenever
that fresh extraction completes — returns `didExtract = true` with no
error and a marker holding `B`'s digest. -/
theorem C7_conflict_and_force (A B : Snapshot) (target : Str) (f₀ : Bool)
    (fs₀ fs₁ : FS)
    (hgt : goodTarget target)
    (hds : trimSpace A.digest = A.digest)
    (hne : A.digest ≠ B.digest)
    (h₁ : EnsureExtracted A target f₀ fs₀ = (fs₁, true, none)) :
    EnsureExtracted B target false fs₁ = (fs₁, false, some errAtomRootExists) ∧
    ∀ fs₂, finishExtract B target (removeAllFS fs₁ target) = (fs₂, true, none) →
      EnsureExtracted B target true fs₁ = (fs₂, true, none) ∧
      readFileFS fs₂ (markerPath target) = some B.digest := by
  have ht := (ensure_ok_state A target f₀ fs₀ fs₁ h₁).1
  obtain ⟨n, hn, hk⟩ := (ensure_ok_state A target f₀ fs₀ fs₁ h₁).2.1
  have hmmB := ensure_ok_marker_other A B target f₀ fs₀ fs₁ hds hne h₁
  have hde := ensure_ok_not_empty A target f₀ fs₀ fs₁ hgt h₁
  constructor
  · rw [EnsureExtracted, if_neg ht]
    rw [show statFS fs₁ target = some n from hn]
    simp [hk, hmmB, hde]
  · intro fs₂ hfin
    constructor
    · rw [EnsureExtracted, if_neg ht]
      rw [show statFS fs₁ target = some n from hn]
      simp [hk, hmmB, hfin]
    · obtain ⟨fsE, hext, hwr⟩ := finish_ok_inv B target _ fs₂ hfin
      obtain ⟨hlk, -, -⟩ := writeFileFS_ok_lookup fsE (markerPath target)
        B.digest fs₂ hwr
      simp [readFileFS, statFS, hlk]

/-- Snapshot `A` for the C7 witness. -/
def C7A : Snapshot := ⟨[⟨str "index.php", .reg, [], str "v1"⟩], str "d1", true⟩

/-- Snapshot `B` for the C7 witness, with a different digest. -/
def C7B : Snapshot := ⟨[⟨str "index.php", .reg, [], str "v2"⟩], str "d2", true⟩

/-- The state after extracting `C7A` into an empty filesystem. -/
def C7fs1 : FS := (EnsureExtracted C7A (str "/atom") false []).1

/-- The state after wiping the target and freshly extracting `C7B`. -/
def C7fs2 : FS :=
  (finishExtract C7B (str "/atom") (removeAllFS C7fs1 (str "/atom"))).1

/-- Witness for `C7_conflict_and_force` on concrete snapshots. -/
theorem C7_conflict_and_force_witness :
    EnsureExtracted C7B (str "/atom") false C7fs1 =
        (C7fs1, false, some errAtomRootExists) ∧
      EnsureExtracted C7B (str "/atom") true C7fs1 = (C7fs2, true, none) ∧
      readFileFS C7fs2 (markerPath (str "/atom")) = some (str "d2") :=
  have hthm := C7_conflict_and_force C7A C7B (str "/atom") false [] C7fs1
    ⟨by decide, by decide, by decide⟩ (by decide) (by decide) (by decide)
  ⟨hthm.1, (hthm.2 C7fs2 (by decide)).1, (hthm.2 C7fs2 (by decide)).2⟩

/-! ## The marker is written only after every entry (C8) -/

theorem markerMatches_eq_of_lookup (snap : Snapshot) (target : Str)
    (fs fs' : FS)
    (h : lookupFS fs' (markerPath target) = lookupFS fs (markerPath target)) :
    markerMatches snap fs' target = markerMatches snap fs target := by
  rw [markerMatches, markerMatches, readFileFS, readFileFS, statFS, statFS, h]

theorem markerMatches_none (snap : Snapshot) (target : Str) (fs' : FS)
    (h : lookupFS fs' (markerPath target) = none) :
    markerMatches snap fs' target = false := by
  simp [markerMatches, readFileFS, statFS, h]

theorem markerMatches_insert_nonreg (snap : Snapshot) (target : Str)
    (fs : FS) (p : Str) (n : FNode) (hk : n.kind ≠ FKind.reg)
    (h : markerMatches snap fs target = false) :
    markerMatches snap (insertFS fs p n) target = false := by
  by_cases hp : markerPath target = p
  · have hl : lookupFS (insertFS fs p n) (markerPath target) = some n := by
      rw [lookupFS_insert, if_pos hp]
    simp [markerMatches, readFileFS, statFS, hl, hk]
  · have hl : lookupFS (insertFS fs p n) (markerPath target) =
        lookupFS fs (markerPath target) := by
      rw [lookupFS_insert, if_neg hp]
    rw [markerMatches_eq_of_lookup snap target fs _ hl]
    exact h

theorem markerMatches_insert_other (snap : Snapshot) (target : Str)
    (fs : FS) (p : Str) (n : FNode) (hp : p ≠ markerPath target)
    (h : markerMatches snap fs target = false) :
    markerMatches snap (insertFS fs p n) target = false := by
  have hl : lookupFS (insertFS fs p n) (markerPath target) =
      lookupFS fs (markerPath target) := by
    rw [lookupFS_insert, if_neg (fun hq => hp hq.symm)]
  rw [markerMatches_eq_of_lookup snap target fs _ hl]
  exact h

theorem mkdirAllFS_preserves_mm (snap : Snapshot) (target : Str)
    (fs : FS) (p : Str) (h : markerMatches snap fs target = false) :
    markerMatches snap (mkdirAllFS fs p).1 target = false := by
  rcases mkdirAllFS_fst fs p with he | ⟨he, -⟩ <;> rw [he]
  · exact h
  · exact markerMatches_insert_nonreg snap target fs p ⟨.dir, []⟩ (fun hc => FKind.noConfusion hc) h

theorem symlinkFS_preserves_mm (snap : Snapshot) (target : Str)
    (fs : FS) (l p : Str) (h : markerMatches snap fs target = false) :
    markerMatches snap (symlinkFS fs l p).1 target = false := by
  rcases symlinkFS_fst fs l p with he | ⟨he, -⟩ <;> rw [he]
  · exact h
  · exact markerMatches_insert_nonreg snap target fs p ⟨.sym, l⟩ (fun hc => FKind.noConfusion hc) h

theorem writeFileFS_preserves_mm (snap : Snapshot) (target : Str)
    (fs : FS) (p d : Str) (hp : p ≠ markerPath target)
    (h : markerMatches snap fs target = false) :
    markerMatches snap (writeFileFS fs p d).1 target = false := by
  rcases writeFileFS_fst fs p d with he | ⟨he, -⟩ <;> rw [he]
  · exact h
  · exact markerMatches_insert_other snap target fs p _ hp h

theorem removeAllFS_preserves_mm (snap : Snapshot) (target t : Str)
    (fs : FS) (h : markerMatches snap fs target = false) :
    markerMatches snap (removeAllFS fs t) target = false := by
  have hl := lookupFS_removeAll fs t (markerPath target)
  by_cases hc : (decide (markerPath target = t) ||
      strictlyUnder t (markerPath target)) = true
  · rw [if_pos hc] at hl
    exact markerMatches_none snap target _ hl
  · rw [if_neg hc] at hl
    rw [markerMatches_eq_of_lookup snap target fs _ hl]
    exact h

theorem extractEntry_preserves_mm (snap : Snapshot) (target : Str)
    (fs : FS) (e : TarEntry)
    (hdst : fpJoin target (goClean e.name) ≠ markerPath target)
    (h : markerMatches snap fs target = false) :
    markerMatches snap (extractEntry target fs e).1 target = false := by
  rw [extractEntry]
  by_cases hn : e.name = []
  · simpa [hn] using h
  · rw [if_neg hn]
    by_cases hb : (beginsWith (goClean e.name) dotdot ||
        decide ((goClean e.name).head? = some '/')) = true
    · simpa [hb] using h
    · rw [if_neg hb]
      cases e.typeflag with
      | dir => exact mkdirAllFS_preserves_mm snap target fs _ h
      | sym =>
        cases hmk : mkdirAllFS fs (dirOf (fpJoin target (goClean e.name))) with
        | mk fs₁ err =>
          have h₁ : markerMatches snap fs₁ target = false := by
            have := mkdirAllFS_preserves_mm snap target fs
              (dirOf (fpJoin target (goClean e.name))) h
            rwa [hmk] at this
          cases err with
          | some e₀ => simpa [hmk] using h₁
          | none =>
            simpa [hmk] using symlinkFS_preserves_mm snap target fs₁ e.linkname _ h₁
      | reg =>
        cases hmk : mkdirAllFS fs (dirOf (fpJoin target (goClean e.name))) with
        | mk fs₁ err =>
          have h₁ : markerMatches snap fs₁ target = false := by
            have := mkdirAllFS_preserves_mm snap target fs
              (dirOf (fpJoin target (goClean e.name))) h
            rwa [hmk] at this
          cases err with
          | some e₀ => simpa [hmk] using h₁
          | none =>
            simpa [hmk] using writeFileFS_preserves_mm snap target fs₁ _
              e.content hdst h₁
      | other => simpa using h

theorem extractEntries_preserves_mm (snap : Snapshot) (target : Str)
    (l : List TarEntry) :
    ∀ (fs : FS),
      (∀ ent ∈ l, fpJoin target (goClean ent.name) ≠ markerPath target) →
      markerMatches snap fs target = false →
      markerMatches snap (extractEntries target fs l).1 target = false := by
  induction l with
  | nil => intro fs _ h; simpa [extractEntries] using h
  | cons e rest ih =>
    intro fs hEnt h
    rw [extractEntries]
    cases he : extractEntry target fs e with
    | mk fs₁ err =>
      have h₁ : markerMatches snap fs₁ target = false := by
        have := extractEntry_preserves_mm snap target fs e
          (hEnt e (by simp)) h
        rwa [he] at this
      cases err with
      | some e₀ => simpa using h₁
      | none =>
        simpa using ih fs₁ (fun ent hent => hEnt ent (by simp [hent])) h₁

theorem extractArchive_preserves_mm (snap : Snapshot) (target : Str) (fs : FS)
    (hEnt : ∀ ent ∈ snap.entries,
      fpJoin target (goClean ent.name) ≠ markerPath target)
    (h : markerMatches snap fs target = false) :
    markerMatches snap (extractArchive snap target fs).1 target = false := by
  rw [extractArchive]
  by_cases ha : (!snap.available) = true
  · simpa [ha] using h
  · rw [if_neg ha]
    cases hmk : mkdirAllFS fs target with
    | mk fs₁ err =>
      have h₁ : markerMatches snap fs₁ target = false := by
        have := mkdirAllFS_preserves_mm snap target fs target h
        rwa [hmk] at this
      cases err with
      | some e₀ => simpa [hmk] using h₁
      | none =>
        simpa [hmk] using
          extractEntries_preserves_mm snap target snap.entries fs₁ hEnt h₁

theorem finish_false_inv (snap : Snapshot) (target : Str) (fsX fs' : FS)
    (e : Str) (h : finishExtract snap target fsX = (fs', false, some e)) :
    extractArchive snap target fsX = (fs', some e) := by
  rw [finishExtract] at h
  cases he : extractArchive snap target fsX with
  | mk fsE err =>
    rw [he] at h
    cases err with
    | some e₀ =>
      simp at h
      rw [h.1, h.2]
    | none =>
      have h' : (match writeFileFS fsE (markerPath target) snap.digest with
        | (fs₂, some err) => (fs₂, true, some err)
        | (fs₂, none) => (fs₂, true, none)) = (fs', false, some e) := h
      cases hw : writeFileFS fsE (markerPath target) snap.digest with
      | mk fs₂ err₂ =>
        rw [hw] at h'
        cases err₂ with
        | some e₀ => simp at h'
        | none => simp at h'

theorem ensure_false_inv (snap : Snapshot) (target : Str) (force : Bool)
    (fs fs' : FS) (e : Str)
    (h : EnsureExtracted snap target force fs = (fs', false, some e)) :
    fs' = fs ∨ ∃ fsX, (fsX = fs ∨ fsX = removeAllFS fs target) ∧
      extractArchive snap target fsX = (fs', some e) := by
  rw [EnsureExtracted] at h
  split at h
  · left
    simp at h
    exact h.1.symm
  · split at h
    · split at h
      · left
        simp at h
        exact h.1.symm
      · split at h
        · simp at h
        · split at h
          · right
            exact ⟨removeAllFS fs target, Or.inr rfl,
              finish_false_inv snap target _ fs' e h⟩
          · split at h
            · right
              exact ⟨fs, Or.inl rfl, finish_false_inv snap target fs fs' e h⟩
            · left
              simp at h
              exact h.1.symm
    · right
      exact ⟨fs, Or.inl rfl, finish_false_inv snap target fs fs' e h⟩

/-- **C8**: the Version Marker is written only after every archive
entry is fully written.  If `EnsureExtracted` fails with
`didExtract = false` — in particular when extraction aborts on some
entry, leaving a partial tree — then no marker carrying the current
snapshot's digest is in place afterwards, so a later call can never
see the partial tree as up to date.  (No archive entry unpacks onto
the marker path itself; the real archive is built from a source tree
that contains no marker file.) -/
theorem C8_marker_after_entries (snap : Snapshot) (target : Str) (force : Bool)
    (fs fs' : FS) (e : Str)
    (hEnt : ∀ ent ∈ snap.entries,
      fpJoin target (goClean ent.name) ≠ markerPath target)
    (hm0 : markerMatches snap fs target = false)
    (h : EnsureExtracted snap target force fs = (fs', false, some e)) :
    markerMatches snap fs' target = false := by
  rcases ensure_false_inv snap target force fs fs' e h with hfs | ⟨fsX, hX, hext⟩
  · rw [hfs]
    exact hm0
  · have hmX : markerMatches snap fsX target = false := by
      rcases hX with rfl | rfl
      · exact hm0
      · exact removeAllFS_preserves_mm snap target target fs hm0
    have := extractArchive_preserves_mm snap target fsX hEnt hmX
    rwa [hext] at this

/-- A snapshot whose second entry is a traversal attack, so
extraction fails after the first entry was written. -/
def C8snap : Snapshot :=
  ⟨[⟨str "ok.txt", .reg, [], str "x"⟩,
    ⟨str "../../etc/passwd", .reg, [], str "evil"⟩], str "d1", true⟩

/-- The partial state left by the failed extraction of `C8snap`. -/
def C8fs : FS := (EnsureExtracted C8snap (str "/atom") false []).1

/-- Witness for `C8_marker_after_entries`: after the failed
extraction of `C8snap` the partial tree carries no matching marker. -/
theorem C8_marker_after_entries_witness :
    markerMatches C8snap C8fs (str "/atom") = false :=
  C8_marker_after_entries C8snap (str "/atom") false [] C8fs errInvalidPath
    (by decide) (by decide) (by decide)

/-! ## Structure of cleaned relative entry names (C5) -/

/-- The invariant of the `path.Clean` stack for unrooted paths:
normal segments on top of accumulated leading `..` segments. -/
def stackOK (st : List Str) : Prop :=
  ∃ a b, st = a ++ b ∧ (∀ s ∈ a, normalSeg s) ∧ (∀ s ∈ b, s = ['.', '.'])

theorem segStep_unrooted_ok (st : List Str) (x : Str) (hx : '/' ∉ x)
    (h : stackOK st) : stackOK (segStep false st x) := by
  obtain ⟨a, b, rfl, ha, hb⟩ := h
  by_cases h0 : x = [] ∨ x = ['.']
  · have h1 : (decide (x = []) || decide (x = ['.'])) = true := by
      rcases h0 with h | h <;> simp [h]
    have hstep : segStep false (a ++ b) x = a ++ b := by
      simp [segStep, h1]
    rw [hstep]
    exact ⟨a, b, rfl, ha, hb⟩
  · push_neg at h0
    have h1 : (decide (x = []) || decide (x = ['.'])) = false := by
      simp [h0.1, h0.2]
    by_cases h2 : x = ['.', '.']
    · subst h2
      cases a with
      | nil =>
        cases b with
        | nil =>
          have hstep : segStep false ([] ++ []) ['.', '.'] = [['.', '.']] := by
            simp [segStep, h1]
          rw [hstep]
          exact ⟨[], [['.', '.']], by simp, by simp, by simp⟩
        | cons t bs =>
          have ht : t = ['.', '.'] := hb t (by simp)
          have hstep : segStep false ([] ++ (t :: bs)) ['.', '.'] =
              ['.', '.'] :: t :: bs := by
            simp [segStep, h1, ht]
          rw [hstep]
          refine ⟨[], ['.', '.'] :: t :: bs, by simp, by simp, ?_⟩
          intro s hs
          rcases List.mem_cons.mp hs with rfl | hs
          · rfl
          · exact hb s (by simpa using hs)
      | cons t as =>
        have ht := ha t (by simp)
        have htne : t ≠ ['.', '.'] := ht.2.2.1
        have hstep : segStep false ((t :: as) ++ b) ['.', '.'] = as ++ b := by
          simp [segStep, h1, htne]
        rw [hstep]
        exact ⟨as, b, rfl, fun s hs => ha s (by simp [hs]), hb⟩
    · have hstep : segStep false (a ++ b) x = x :: (a ++ b) := by
        simp [segStep, h1, h2]
      rw [hstep]
      refine ⟨x :: a, b, by simp, ?_, hb⟩
      intro s hs
      rcases List.mem_cons.mp hs with rfl | hs
      · exact ⟨h0.1, h0.2, h2, hx⟩
      · exact ha s hs

theorem processSegs_unrooted_ok (l : List Str) :
    ∀ st, (∀ s ∈ l, '/' ∉ s) → stackOK st →
      stackOK (processSegs false st l) := by
  induction l with
  | nil => intro st _ h; simpa [processSegs] using h
  | cons x xs ih =>
    intro st hl h
    have hunf : processSegs false st (x :: xs) =
        processSegs false (segStep false st x) xs := by
      simp [processSegs]
    rw [hunf]
    exact ih (segStep false st x) (fun s hs => hl s (by simp [hs]))
      (segStep_unrooted_ok st x (hl x (by simp)) h)

theorem goClean_unrooted_eq (nm : Str) (hne : nm ≠ [])
    (hh : ¬(nm.head? = some '/')) :
    goClean nm =
      (if joinSegs (processSegs false [] (splitSlash nm)).reverse = []
       then ['.']
       else joinSegs (processSegs false [] (splitSlash nm)).reverse) := by
  simp [goClean, hne, hh]

theorem joinSegs_ne_nil (M : List Str) (hMne : M ≠ [])
    (hM : ∀ s ∈ M, normalSeg s) : joinSegs M ≠ [] := by
  cases M with
  | nil => exact absurd rfl hMne
  | cons x xs =>
    cases xs with
    | nil => exact (hM x (by simp)).1
    | cons y ys =>
      have hj : joinSegs (x :: y :: ys) = x ++ '/' :: joinSegs (y :: ys) := rfl
      rw [hj]
      intro hc
      simp at hc

/-- The cleaned name of a tar entry that survives the traversal check:
either the bare `.` or a nonempty run of normal segments. -/
theorem clean_rel_structure (nm : Str) (hne : nm ≠ [])
    (hbw : beginsWith (goClean nm) dotdot = false)
    (habs : ¬((goClean nm).head? = some '/')) :
    goClean nm = ['.'] ∨
      ∃ M, M ≠ [] ∧ (∀ s ∈ M, normalSeg s) ∧ goClean nm = joinSegs M := by
  have hh : ¬(nm.head? = some '/') := by
    intro hr
    obtain ⟨rest, rfl⟩ : ∃ rest, nm = '/' :: rest := by
      cases nm with
      | nil => exact absurd rfl hne
      | cons c cs =>
        simp at hr
        exact ⟨cs, by rw [hr]⟩
    rw [goClean_rooted] at habs
    simp at habs
  rw [goClean_unrooted_eq nm hne hh] at hbw ⊢
  have hok : stackOK (processSegs false [] (splitSlash nm)) :=
    processSegs_unrooted_ok (splitSlash nm) [] (splitSlash_no_slash nm)
      ⟨[], [], rfl, by simp, by simp⟩
  by_cases hbody :
      joinSegs (processSegs false [] (splitSlash nm)).reverse = []
  · left
    rw [if_pos hbody]
  · right
    rw [if_neg hbody] at hbw ⊢
    obtain ⟨a, b, hab, ha, hb⟩ := hok
    have hbnil : b = [] := by
      by_contra hbne
      obtain ⟨b', hbrev⟩ : ∃ b', b.reverse = ['.', '.'] :: b' := by
        cases hbv : b.reverse with
        | nil => exact absurd (by simpa using hbv) hbne
        | cons h0 t0 =>
          have hmem : h0 ∈ b := by
            rw [← List.mem_reverse, hbv]
            simp
          exact ⟨t0, by rw [hb h0 hmem]⟩
      have hjoin : beginsWith
          (joinSegs (processSegs false [] (splitSlash nm)).reverse)
          dotdot = true := by
        rw [hab, List.reverse_append, hbrev, List.cons_append]
        cases hc : b' ++ a.reverse with
        | nil => decide
        | cons y ys =>
          have hj : joinSegs (['.', '.'] :: y :: ys) =
              ['.', '.'] ++ '/' :: joinSegs (y :: ys) := rfl
          rw [hj]
          exact beginsWith_append ['.', '.'] ('/' :: joinSegs (y :: ys))
      rw [hjoin] at hbw
      cases hbw
    subst hbnil
    refine ⟨(processSegs false [] (splitSlash nm)).reverse, ?_, ?_, rfl⟩
    · intro h0
      rw [h0] at hbody
      exact hbody rfl
    · intro s hs
      have := List.mem_reverse.mp hs
      rw [hab] at this
      exact ha s (by simpa using this)

theorem fpJoin_dot (t : Str) (hgt : goodTarget t) : fpJoin t ['.'] = t := by
  obtain ⟨L, hLne, hL, hEq⟩ := goodTarget_decomp t hgt
  subst hEq
  rw [fpJoin, if_neg (by simp), if_neg (by decide)]
  have h1 : ('/' :: joinSegs L) ++ '/' :: ['.'] =
      '/' :: (joinSegs L ++ '/' :: ['.']) := by simp
  rw [h1, goClean_rooted, splitSlash_append]
  have h2 : splitSlash ['.'] = [['.']] := rfl
  rw [h2, processSegs_append]
  have h3 : processSegs true
      (processSegs true [] (splitSlash (joinSegs L))) [['.']] =
      processSegs true [] (splitSlash (joinSegs L)) := by
    simp [processSegs, segStep]
  rw [h3, splitSlash_joinSegs L hLne (fun s hs => (hL s hs).2.2.2),
    processSegs_all_normal true L [] hL]
  simp

/-- `q` equals the target or lies strictly inside it. -/
def underEq (t q : Str) : Prop := q = t ∨ strictlyUnder t q = true

theorem fpJoin_segs_under (t : Str) (hgt : goodTarget t) (M : List Str)
    (hMne : M ≠ []) (hM : ∀ s ∈ M, normalSeg s) :
    strictlyUnder t (fpJoin t (joinSegs M)) = true := by
  obtain ⟨L, hLne, hL, hEq⟩ := goodTarget_decomp t hgt
  have hLM : ∀ s ∈ L ++ M, normalSeg s := by
    intro s hs
    rcases List.mem_append.mp hs with hs | hs
    · exact hL s hs
    · exact hM s hs
  have hja : joinSegs (L ++ M) = joinSegs L ++ '/' :: joinSegs M :=
    joinSegs_append L M hLne hMne
  have hjoin : fpJoin t (joinSegs M) = t ++ '/' :: joinSegs M := by
    subst hEq
    rw [fpJoin, if_neg (by simp), if_neg (joinSegs_ne_nil M hMne hM)]
    calc goClean (('/' :: joinSegs L) ++ '/' :: joinSegs M)
        = goClean ('/' :: joinSegs (L ++ M)) := by rw [hja]; simp
      _ = '/' :: joinSegs (L ++ M) := goClean_rooted_join _ hLM
      _ = ('/' :: joinSegs L) ++ '/' :: joinSegs M := by rw [hja]; simp
  rw [hjoin, strictlyUnder]
  have hsplit : t ++ '/' :: joinSegs M = (t ++ ['/']) ++ joinSegs M := by simp
  rw [hsplit]
  exact beginsWith_append (t ++ ['/']) (joinSegs M)

/-- The destination of a tar entry that survives the traversal check
lies at or under the target. -/
theorem entry_dst_under (t : Str) (hgt : goodTarget t) (nm : Str)
    (hne : nm ≠ [])
    (hbw : beginsWith (goClean nm) dotdot = false)
    (habs : ¬((goClean nm).head? = some '/')) :
    underEq t (fpJoin t (goClean nm)) := by
  rcases clean_rel_structure nm hne hbw habs with hdot | ⟨M, hMne, hM, hEq⟩
  · rw [hdot, fpJoin_dot t hgt]
    exact Or.inl rfl
  · rw [hEq]
    exact Or.inr (fpJoin_segs_under t hgt M hMne hM)

/-! ## Extraction writes stay inside the target (C5) -/

theorem mkdirAllFS_lookup_inv (fs : FS) (p q : Str) (n : FNode)
    (h : lookupFS (mkdirAllFS fs p).1 q = some n) :
    lookupFS fs q = some n ∨ (q = p ∧ n = ⟨.dir, []⟩) := by
  rcases mkdirAllFS_fst fs p with he | ⟨he, -⟩ <;> rw [he] at h
  · exact Or.inl h
  · rw [lookupFS_insert] at h
    by_cases hq : q = p
    · rw [if_pos hq] at h
      exact Or.inr ⟨hq, by injection h.symm⟩
    · rw [if_neg hq] at h
      exact Or.inl h

theorem writeFileFS_lookup_inv (fs : FS) (p d q : Str) (n : FNode)
    (h : lookupFS (writeFileFS fs p d).1 q = some n) :
    lookupFS fs q = some n ∨ (q = p ∧ n = ⟨.reg, d⟩) := by
  rcases writeFileFS_fst fs p d with he | ⟨he, -⟩ <;> rw [he] at h
  · exact Or.inl h
  · rw [lookupFS_insert] at h
    by_cases hq : q = p
    · rw [if_pos hq] at h
      exact Or.inr ⟨hq, by injection h.symm⟩
    · rw [if_neg hq] at h
      exact Or.inl h

theorem symlinkFS_lookup_inv (fs : FS) (l p q : Str) (n : FNode)
    (h : lookupFS (symlinkFS fs l p).1 q = some n) :
    lookupFS fs q = some n ∨ (q = p ∧ n = ⟨.sym, l⟩) := by
  rcases symlinkFS_fst fs l p with he | ⟨he, -⟩ <;> rw [he] at h
  · exact Or.inl h
  · rw [lookupFS_insert] at h
    by_cases hq : q = p
    · rw [if_pos hq] at h
      exact Or.inr ⟨hq, by injection h.symm⟩
    · rw [if_neg hq] at h
      exact Or.inl h

theorem extractEntry_under (t : Str) (hgt : goodTarget t) (fs : FS)
    (e : TarEntry) :
    ∀ q n, lookupFS (extractEntry t fs e).1 q = some n →
      lookupFS fs q = some n ∨ underEq t q ∨ n.kind = FKind.dir := by
  intro q n h
  rw [extractEntry] at h
  by_cases hn : e.name = []
  · rw [if_pos hn] at h
    exact Or.inl h
  · rw [if_neg hn] at h
    by_cases hb : (beginsWith (goClean e.name) dotdot ||
        decide ((goClean e.name).head? = some '/')) = true
    · rw [if_pos hb] at h
      exact Or.inl h
    · rw [if_neg hb] at h
      have hbw : beginsWith (goClean e.name) dotdot = false := by
        cases hx : beginsWith (goClean e.name) dotdot with
        | false => rfl
        | true => exact absurd (by simp [hx]) hb
      have habs : ¬((goClean e.name).head? = some '/') := by
        intro hhd
        exact hb (by simp [hhd])
      have hdst : underEq t (fpJoin t (goClean e.name)) :=
        entry_dst_under t hgt e.name hn hbw habs
      cases htf : e.typeflag
      all_goals rw [htf] at h
      · rcases mkdirAllFS_lookup_inv fs _ q n h with h1 | ⟨-, h2⟩
        · exact Or.inl h1
        · exact Or.inr (Or.inr (by rw [h2]))
      · have hm : lookupFS
            (match mkdirAllFS fs (dirOf (fpJoin t (goClean e.name))) with
              | (fs₁, some err) => (fs₁, some err)
              | (fs₁, none) =>
                symlinkFS fs₁ e.linkname (fpJoin t (goClean e.name))).1 q =
            some n := h
        cases hmk : mkdirAllFS fs (dirOf (fpJoin t (goClean e.name))) with
        | mk fs₁ err =>
          rw [hmk] at hm
          cases err with
          | some e₀ =>
            have h' : lookupFS fs₁ q = some n := hm
            rcases mkdirAllFS_lookup_inv fs _ q n (by rw [hmk]; exact h')
              with h1 | ⟨-, h2⟩
            · exact Or.inl h1
            · exact Or.inr (Or.inr (by rw [h2]))
          | none =>
            have h' : lookupFS (symlinkFS fs₁ e.linkname
                (fpJoin t (goClean e.name))).1 q = some n := hm
            rcases symlinkFS_lookup_inv fs₁ _ _ q n h' with h1 | ⟨hq, -⟩
            · rcases mkdirAllFS_lookup_inv fs _ q n (by rw [hmk]; exact h1)
                with h2 | ⟨-, h3⟩
              · exact Or.inl h2
              · exact Or.inr (Or.inr (by rw [h3]))
            · exact Or.inr (Or.inl (hq ▸ hdst))
      · have hm : lookupFS
            (match mkdirAllFS fs (dirOf (fpJoin t (goClean e.name))) with
              | (fs₁, some err) => (fs₁, some err)
              | (fs₁, none) =>
                writeFileFS fs₁ (fpJoin t (goClean e.name)) e.content).1 q =
            some n := h
        cases hmk : mkdirAllFS fs (dirOf (fpJoin t (goClean e.name))) with
        | mk fs₁ err =>
          rw [hmk] at hm
          cases err with
          | some e₀ =>
            have h' : lookupFS fs₁ q = some n := hm
            rcases mkdirAllFS_lookup_inv fs _ q n (by rw [hmk]; exact h')
              with h1 | ⟨-, h2⟩
            · exact Or.inl h1
            · exact Or.inr (Or.inr (by rw [h2]))
          | none =>
            have h' : lookupFS (writeFileFS fs₁
                (fpJoin t (goClean e.name)) e.content).1 q = some n := hm
            rcases writeFileFS_lookup_inv fs₁ _ _ q n h' with h1 | ⟨hq, -⟩
            · rcases mkdirAllFS_lookup_inv fs _ q n (by rw [hmk]; exact h1)
                with h2 | ⟨-, h3⟩
              · exact Or.inl h2
              · exact Or.inr (Or.inr (by rw [h3]))
            · exact Or.inr (Or.inl (hq ▸ hdst))
      · exact Or.inl h

theorem extractEntries_under (t : Str) (hgt : goodTarget t)
    (l : List TarEntry) :
    ∀ fs q n, lookupFS (extractEntries t fs l).1 q = some n →
      lookupFS fs q = some n ∨ underEq t q ∨ n.kind = FKind.dir := by
  induction l with
  | nil =>
    intro fs q n h
    exact Or.inl h
  | cons e rest ih =>
    intro fs q n h
    rw [extractEntries] at h
    cases he : extractEntry t fs e with
    | mk fs₁ err =>
      rw [he] at h
      cases err with
      | some e₀ =>
        have h' : lookupFS fs₁ q = some n := h
        exact extractEntry_under t hgt fs e q n (by rw [he]; exact h')
      | none =>
        have h' : lookupFS (extractEntries t fs₁ rest).1 q = some n := h
        rcases ih fs₁ q n h' with h1 | h2
        · exact extractEntry_under t hgt fs e q n (by rw [he]; exact h1)
        · exact Or.inr h2

theorem extractArchive_under (snap : Snapshot) (t : Str) (fs : FS)
    (hgt : goodTarget t) :
    ∀ q n, lookupFS (extractArchive snap t fs).1 q = some n →
      lookupFS fs q = some n ∨ underEq t q ∨ n.kind = FKind.dir := by
  intro q n h
  rw [extractArchive] at h
  by_cases ha : (!snap.available) = true
  · rw [if_pos ha] at h
    exact Or.inl h
  · rw [if_neg ha] at h
    cases hmk : mkdirAllFS fs t with
    | mk fs₁ err =>
      rw [hmk] at h
      cases err with
      | some e =>
        have h' : lookupFS fs₁ q = some n := h
        rcases mkdirAllFS_lookup_inv fs t q n (by rw [hmk]; exact h')
          with h1 | ⟨-, h2⟩
        · exact Or.inl h1
        · exact Or.inr (Or.inr (by rw [h2]))
      | none =>
        have h' : lookupFS (extractEntries t fs₁ snap.entries).1 q = some n := h
        rcases extractEntries_under t hgt snap.entries fs₁ q n h' with h1 | h2
        · rcases mkdirAllFS_lookup_inv fs t q n (by rw [hmk]; exact h1)
            with h2 | ⟨-, h3⟩
          · exact Or.inl h2
          · exact Or.inr (Or.inr (by rw [h3]))
        · exact Or.inr h2

/-- An archive entry whose cleaned path starts with `..` or is
absolute — the entries `extractArchive` rejects. -/
def badEntry (e : TarEntry) : Bool :=
  !e.name.isEmpty &&
    (beginsWith (goClean e.name) dotdot ||
      decide ((goClean e.name).head? = some '/'))

theorem extractEntry_bad (t : Str) (fs : FS) (e : TarEntry)
    (hb : badEntry e = true) :
    extractEntry t fs e = (fs, some errInvalidPath) := by
  rw [badEntry, Bool.and_eq_true] at hb
  have hn : e.name ≠ [] := by
    intro h0
    rw [h0] at hb
    simp at hb
  rw [extractEntry, if_neg hn, if_pos hb.2]

theorem extractEntries_err (t : Str) (l : List TarEntry) :
    ∀ fs, (∃ e ∈ l, badEntry e = true) →
      (extractEntries t fs l).2.isSome = true := by
  induction l with
  | nil =>
    intro fs h
    simp at h
  | cons e rest ih =>
    rintro fs ⟨e₀, he₀, hb⟩
    rw [extractEntries]
    cases he : extractEntry t fs e with
    | mk fs₁ err =>
      cases err with
      | some x => rfl
      | none =>
        rcases List.mem_cons.mp he₀ with rfl | hmem
        · rw [extractEntry_bad t fs e₀ hb] at he
          simp at he
        · exact ih fs₁ ⟨e₀, hmem, hb⟩

theorem extractArchive_err (snap : Snapshot) (t : Str) (fs : FS)
    (hbad : ∃ e ∈ snap.entries, badEntry e = true) :
    (extractArchive snap t fs).2.isSome = true := by
  rw [extractArchive]
  by_cases ha : (!snap.available) = true
  · rw [if_pos ha]
    rfl
  · rw [if_neg ha]
    cases hmk : mkdirAllFS fs t with
    | mk fs₁ err =>
      cases err with
      | some e => rfl
      | none => exact extractEntries_err t snap.entries fs₁ hbad

/-- **C5**: if some archive entry's cleaned stored path starts with
`..` or is absolute (e.g. an entry named `../../etc/passwd`),
extraction returns an error, and every node it created or replaced
before aborting lies at or under the target — the only nodes possibly
recorded elsewhere are directories (intermediate `MkdirAll` parents),
never file or symlink content. -/
theorem C5_archive_traversal_safety (snap : Snapshot) (target : Str) (fs : FS)
    (hgt : goodTarget target)
    (hbad : ∃ e ∈ snap.entries, badEntry e = true) :
    (extractArchive snap target fs).2.isSome = true ∧
    ∀ q n, lookupFS (extractArchive snap target fs).1 q = some n →
      lookupFS fs q = some n ∨ underEq target q ∨ n.kind = FKind.dir :=
  ⟨extractArchive_err snap target fs hbad,
    extractArchive_under snap target fs hgt⟩

/-- An archive containing the traversal entry `../../etc/passwd`. -/
def C5snap : Snapshot :=
  ⟨[⟨str "ok.txt", .reg, [], str "x"⟩,
    ⟨str "../../etc/passwd", .reg, [], str "evil"⟩], str "d1", true⟩

/-- Witness for `C5_archive_traversal_safety`: extracting `C5snap`
into an empty filesystem errors, and the one file written before the
abort sits inside the target. -/
theorem C5_archive_traversal_safety_witness :
    (extractArchive C5snap (str "/atom") []).2.isSome = true ∧
      (lookupFS ([] : FS) (str "/atom/ok.txt") = some ⟨.reg, str "x"⟩ ∨
        underEq (str "/atom") (str "/atom/ok.txt") ∨
        (⟨.reg, str "x"⟩ : FNode).kind = FKind.dir) :=
  have hthm := C5_archive_traversal_safety C5snap (str "/atom") []
    ⟨by decide, by decide, by decide⟩ (by decide)
  ⟨hthm.1, hthm.2 (str "/atom/ok.txt") ⟨.reg, str "x"⟩ (by decide)⟩
